/-
Verification of the sparse-matrix algebra core (SOLAR): ring operator
objects, sparse-vector stream transforms (Scale, DropZeros, Gather), the
itertools-style two-way merge, the clearing subroutines and the column
reduction engine (right_reduce), and the heap-of-iterators merge (HIT).

Shallow embedding conventions:
  * a lazy iterator is modelled by the list of items obtained by draining it;
  * ring operator objects (Semiring + Ring + DivisionRing method sets) are
    records of Lean functions;
  * in-place mutation becomes explicit state passing;
  * Rust panics and the potentially non-terminating clearing loop are
    modelled with Option and an explicit fuel parameter.
-/
import Mathlib

set_option maxHeartbeats 1000000

attribute [local semireducible] Rat.add Rat.mul Rat.inv Rat.sub Rat.ofScientific

namespace Solar

/-- Ring operator object: the combined method set of the `Semiring`, `Ring`
and `DivisionRing` traits of `rings/ring.rs` over an element type `V`. -/
structure RingOp (V : Type) where
  is_0 : V → Bool
  is_1 : V → Bool
  zero : V
  one : V
  add : V → V → V
  multiply : V → V → V
  subtract : V → V → V
  negate : V → V
  divide : V → V → V
  invert : V → V

/-- The two-element field object `GF2` of `rings/field_prime.rs`:
addition and subtraction are xor, multiplication is conjunction, negation is
the identity, and division/inversion ignore the divisor (the source marks
this as an unchecked shortcut). -/
def GF2 : RingOp Bool where
  is_0 := fun x => !x
  is_1 := fun x => x
  zero := false
  one := true
  add := fun x y => xor x y
  multiply := fun x y => x && y
  subtract := fun x y => xor x y
  negate := fun x => x
  divide := fun x _y => x
  invert := fun x => x

/-- The `NativeDivisionRing` object of `rings/ring_native.rs` instantiated at
an exact field of characteristic zero.  The reduction example of the spec
uses real coefficients whose values stay in the integers divided by small
integers, so rational arithmetic reproduces the source computation exactly. -/
def ratRing : RingOp ℚ where
  is_0 := fun x => decide (x = 0)
  is_1 := fun x => decide (x = 1)
  zero := 0
  one := 1
  add := fun x y => x + y
  multiply := fun x y => x * y
  subtract := fun x y => x - y
  negate := fun x => -x
  divide := fun x y => x / y
  invert := fun x => 1 / x

section Transforms

variable {K V : Type}

/-- Drain of the `DropZeros` iterator of `vectors/vector_transforms.rs`:
entries whose value the ring object reports as zero are skipped. -/
def drop_zeros (ring : RingOp V) : List (K × V) → List (K × V)
  | [] => []
  | x :: rest =>
      if ring.is_0 x.2 then drop_zeros ring rest
      else x :: drop_zeros ring rest

/-- Drain of the `Scale` iterator of `vectors/vector_transforms.rs`: each
entry `(k, v)` is replaced by `(k, multiply v factor)`. -/
def scale (ring : RingOp V) (factor : V) : List (K × V) → List (K × V)
  | [] => []
  | x :: rest => (x.1, ring.multiply x.2 factor) :: scale ring factor rest

/-- One run of the `Gather` iterator of `vectors/vector_transforms.rs`:
holding the current entry `x`, peek at the next upstream entry and, while
its key equals the key of `x`, absorb its value into `x` with `add`. -/
def gatherGo [DecidableEq K] (ring : RingOp V) (x : K × V) :
    List (K × V) → List (K × V)
  | [] => [x]
  | y :: rest =>
      if y.1 = x.1 then gatherGo ring (x.1, ring.add x.2 y.2) rest
      else x :: gatherGo ring y rest

/-- Drain of the `Gather` iterator: consecutive entries sharing a key are
merged into one entry whose value is the sum of their values. -/
def gather [DecidableEq K] (ring : RingOp V) : List (K × V) → List (K × V)
  | [] => []
  | x :: rest => gatherGo ring x rest

end Transforms

/-- Fuelled helper for the itertools two-way merge; the fuel only drives the
structural recursion and is always supplied as the sum of the lengths, which
the merge never exhausts. -/
def itermergeF {γ : Type} (le : γ → γ → Bool) : Nat → List γ → List γ → List γ
  | _, [], ys => ys
  | _, x :: xs, [] => x :: xs
  | 0, xs, _ => xs
  | fuel + 1, x :: xs, y :: ys =>
      if le x y then x :: itermergeF le fuel xs (y :: ys)
      else y :: itermergeF le fuel (x :: xs) ys

/-- Drain of the itertools two-way merge used by `clear_if_in` and
`right_reduce`: at each step the head of the first stream is taken when it
compares less-or-equal to the head of the second stream. -/
def itermerge {γ : Type} (le : γ → γ → Bool) (xs ys : List γ) : List γ :=
  itermergeF le (xs.length + ys.length) xs ys

/-- Rust lexicographic order on `(usize, rational)` pairs, as used when the
source merges entry streams of `(Key, Val)` tuples. -/
def pairLe (a b : Nat × ℚ) : Bool :=
  decide (a.1 < b.1) || (decide (a.1 = b.1) && decide (a.2 ≤ b.2))

section Clearing

variable {K V : Type} [DecidableEq K]

/-- `clear_if_in` of `matrix_factorization/vec_of_vec.rs`.  The clearee is
returned unchanged when it has no entry at the pivot key or that entry is
zero; otherwise a scalar multiple of the clearor is merged in, coefficients
are gathered and zeros dropped.  `leE` is the order on entries used by the
itertools merge. -/
def clear_if_in (ring : RingOp V) (leE : K × V → K × V → Bool)
    (clearor clearee : List (K × V)) (pivot_entry : K × V) : List (K × V) :=
  match clearee.find? (fun x => x.1 = pivot_entry.1) with
  | none => clearee
  | some entry_to_clear =>
      if ring.is_0 entry_to_clear.2 then clearee
      else
        let scalar := ring.divide (ring.negate entry_to_clear.2) pivot_entry.2
        drop_zeros ring (gather ring
          (itermerge leE clearee (scale ring scalar clearor)))

end Clearing

section RightReduce

variable {V : Type}

/-- Lookup in the pivot map (`HashMap<Key, Key>` in the source), modelled as
an association list whose most recent insertion is found first. -/
def pivotLookup (h : List (Nat × Nat)) (k : Nat) : Option Nat :=
  (h.find? (fun p => p.1 = k)).map (fun p => p.2)

/-- Insertion into the pivot map.  The reduction engine only ever inserts
keys that are absent, so cons is observationally the HashMap insert. -/
def pivotInsert (h : List (Nat × Nat)) (k c : Nat) : List (Nat × Nat) :=
  (k, c) :: h

/-- Inner clearing loop of `right_reduce`: while the last entry of the
clearee has a key already in the pivot map, merge in the appropriate scalar
multiple of the recorded clearor column, gather and drop zeros.  Running out
of fuel, or the panic of `clearor.last().unwrap()`, yields `none`. -/
def reduceClearee (ring : RingOp V) (leE : Nat × V → Nat × V → Bool)
    (matrix : List (List (Nat × V))) (h : List (Nat × Nat)) :
    Nat → List (Nat × V) → Option (List (Nat × V))
  | fuel, clearee =>
    match clearee.getLast? with
    | none => some clearee
    | some clearee_entry =>
      match pivotLookup h clearee_entry.1 with
      | none => some clearee
      | some clearor_index =>
        match matrix.get? clearor_index with
        | none => none
        | some clearor =>
          match clearor.getLast? with
          | none => none
          | some clearor_entry =>
            match fuel with
            | 0 => none
            | fuel' + 1 =>
              let scalar := ring.divide (ring.negate clearee_entry.2)
                              clearor_entry.2
              reduceClearee ring leE matrix h fuel'
                (drop_zeros ring (gather ring
                  (itermerge leE clearee (scale ring scalar clearor))))

/-- Outer loop of `right_reduce`: `count` columns remain to be processed and
`c` is the index of the current column (the source iterates
`clearee_count in 0..matrix.len()`; the matrix length never changes, so the
countdown form is the same loop).  Each iteration clones the column, reduces
it, clears the slot of the column in the matrix, and if the reduced clearee
is nonzero records its pivot and writes it back. -/
def rrGo (ring : RingOp V) (leE : Nat × V → Nat × V → Bool) (fuel : Nat) :
    Nat → Nat → List (List (Nat × V)) → List (Nat × Nat) →
    Option (List (List (Nat × V)) × List (Nat × Nat))
  | 0, _c, matrix, h => some (matrix, h)
  | count + 1, c, matrix, h =>
      match reduceClearee ring leE matrix h fuel (matrix.getD c []) with
      | none => none
      | some clearee =>
        match clearee.getLast? with
        | none => rrGo ring leE fuel count (c + 1) (matrix.set c []) h
        | some pivot_entry =>
            rrGo ring leE fuel count (c + 1) (matrix.set c clearee)
              (pivotInsert h pivot_entry.1 c)

/-- `right_reduce` of `matrix_factorization/vec_of_vec.rs` with explicit
fuel for the inner clearing loop.  Returns the reduced matrix together with
the pivot map. -/
def right_reduce (ring : RingOp V) (leE : Nat × V → Nat × V → Bool)
    (fuel : Nat) (matrix : List (List (Nat × V))) :
    Option (List (List (Nat × V)) × List (Nat × Nat)) :=
  rrGo ring leE fuel matrix.length 0 matrix []

end RightReduce

section GatherSpec

variable {K V : Type} [DecidableEq K]

/-- Split off the maximal leading run of entries whose key is `k`
(specification-side helper for the Gather claim). -/
def runSplit (k : K) : List (K × V) → List (K × V) × List (K × V)
  | [] => ([], [])
  | x :: rest =>
      if x.1 = k then
        ((x :: (runSplit k rest).1), (runSplit k rest).2)
      else ([], x :: rest)

theorem runSplit_len (k : K) :
    ∀ l : List (K × V), (runSplit k l).2.length ≤ l.length := by
  intro l
  induction l with
  | nil => simp [runSplit]
  | cons x rest ih =>
      by_cases hx : x.1 = k <;> simp [runSplit, hx] <;> omega

/-- Modelled from the spec: description of `Gather` as emitting, for each
maximal run of consecutive equal-key entries, one entry carrying the key of
the run and the ring sum of the values of the run. -/
def gather_spec (ring : RingOp V) : List (K × V) → List (K × V)
  | [] => []
  | x :: rest =>
      (x.1, ((runSplit x.1 rest).1.map Prod.snd).foldl ring.add x.2) ::
        gather_spec ring (runSplit x.1 rest).2
  termination_by l => l.length
  decreasing_by
    simp only [List.length_cons]
    exact Nat.lt_succ_of_le (runSplit_len _ _)

theorem gatherGo_eq_run (ring : RingOp V) :
    ∀ (rest : List (K × V)) (x : K × V),
      gatherGo ring x rest =
        (x.1, ((runSplit x.1 rest).1.map Prod.snd).foldl ring.add x.2) ::
          gather ring (runSplit x.1 rest).2 := by
  intro rest
  induction rest with
  | nil => intro x; simp [gatherGo, runSplit, gather]
  | cons y r ih =>
      intro x
      by_cases hy : y.1 = x.1
      · have := ih (x.1, ring.add x.2 y.2)
        simp only [gatherGo, if_pos hy, this, runSplit, hy, if_pos rfl]
        simp [List.foldl_cons]
      · simp [gatherGo, hy, runSplit, gather]

end GatherSpec

section Claims1

/-- C1: the concrete reduction example of the spec.  On the five-column
input matrix over exact real (rational) coefficients, `right_reduce`
produces the reduced matrix `[[(2,1),(3,-1)], [(2,2)], [(1,1)], [(0,1)], []]`
and the pivot map `{3:0, 2:1, 1:2, 0:3}` (as an association list built by
the four insertions, most recent first). -/
theorem c1_right_reduce_example :
    Solar.right_reduce Solar.ratRing Solar.pairLe 10
      [ [ (2, (1:ℚ)), (3, -1) ],
        [ (2, 1), (3, 1) ],
        [ (1, 1), (2, 1) ],
        [ (0, 1), (1, 1) ],
        [ (0, 1) ] ] =
    some ( [ [ (2, 1), (3, -1) ], [ (2, 2) ], [ (1, 1) ], [ (0, 1) ], [] ],
           [ (0, 3), (1, 2), (2, 1), (3, 0) ] ) := by
  decide

variable {K V : Type}

/-- C5: `clear_if_in` is a no-op when the clearee has no entry at the pivot
key, or when the first entry found at that key has a value the ring reports
as zero. -/
theorem c5_clear_if_in_noop [DecidableEq K] (ring : RingOp V)
    (leE : K × V → K × V → Bool)
    (clearor clearee : List (K × V)) (pivot_entry : K × V)
    (h : clearee.find? (fun x => x.1 = pivot_entry.1) = none ∨
         ∃ e, clearee.find? (fun x => x.1 = pivot_entry.1) = some e ∧
              ring.is_0 e.2 = true) :
    clear_if_in ring leE clearor clearee pivot_entry = clearee := by
  rcases h with h | ⟨e, he, hz⟩
  · simp [clear_if_in, h]
  · simp [clear_if_in, he, hz]

/-- Witness for C5 at a concrete input: the second doc-test of
`clear_if_in` (absent target key). -/
theorem c5_clear_if_in_noop_witness :
    clear_if_in ratRing pairLe [ (0, (1:ℚ)), (1, 1) ] [ (2, 1) ] (1, 1) =
      [ (2, 1) ] :=
  c5_clear_if_in_noop ratRing pairLe _ _ _ (Or.inl (by decide))

/-- C6: `Gather` emits exactly one entry per maximal run of consecutive
equal-key entries; the entry carries the key of the run and the ring sum
(`add`, folded left over the run) of its values.  In particular non-adjacent
duplicate keys stay separate entries and zero-valued sums are not dropped,
since `gather_spec` keeps one output entry for every run. -/
theorem c6_gather_runs [DecidableEq K] (ring : RingOp V) (l : List (K × V)) :
    gather ring l = gather_spec ring l := by
  have H : ∀ (n : Nat) (t : List (K × V)), t.length ≤ n →
      gather ring t = gather_spec ring t := by
    intro n
    induction n with
    | zero =>
        intro t ht
        rw [List.length_eq_zero.mp (Nat.le_zero.mp ht)]
        simp [gather, gather_spec]
    | succ n ih =>
        intro t ht
        cases t with
        | nil => simp [gather, gather_spec]
        | cons x rest =>
            rw [gather, gatherGo_eq_run, gather_spec]
            have hle : (runSplit x.1 rest).2.length ≤ n := by
              have h1 := runSplit_len x.1 rest
              simp only [List.length_cons] at ht
              omega
            rw [ih _ hle]
  exact H l.length l le_rfl

/-- C7: scaling is multiplicative in the factor whenever the ring
multiplication is associative, and `Scale` rewrites each entry `(k, v)` to
`(k, multiply v factor)`, preserving order and cardinality (it is precisely
an entrywise map). -/
theorem c7_scale_linearity (ring : RingOp V) (a b : V) (s : List (K × V))
    (hassoc : ∀ x y z : V,
      ring.multiply (ring.multiply x y) z = ring.multiply x (ring.multiply y z)) :
    scale ring b (scale ring a s) = scale ring (ring.multiply a b) s ∧
    scale ring a s = s.map (fun e => (e.1, ring.multiply e.2 a)) := by
  constructor
  · induction s with
    | nil => simp [scale]
    | cons x rest ih => simp [scale, ih, hassoc]
  · induction s with
    | nil => simp [scale]
    | cons x rest ih => simp [scale, ih]

/-- Witness for C7 at a concrete input over the rationals. -/
theorem c7_scale_linearity_witness :
    scale ratRing 3 (scale ratRing 2 [ ((0:Nat), (5:ℚ)) ]) =
      scale ratRing (ratRing.multiply 2 3) [ ((0:Nat), (5:ℚ)) ] ∧
    scale ratRing 2 [ ((0:Nat), (5:ℚ)) ] =
      [ ((0:Nat), (5:ℚ)) ].map (fun e => (e.1, ratRing.multiply e.2 2)) :=
  c7_scale_linearity ratRing 2 3 _ (fun x y z => mul_assoc x y z)

/-- C8: `DropZeros` emits exactly the upstream entries whose value is not
reported zero, in upstream order (it is the evident filter, on sorted or
unsorted input alike), and is therefore idempotent. -/
theorem c8_drop_zeros_idempotent (ring : RingOp V) (s : List (K × V)) :
    drop_zeros ring s = s.filter (fun e => !ring.is_0 e.2) ∧
    drop_zeros ring (drop_zeros ring s) = drop_zeros ring s := by
  have hf : ∀ t : List (K × V),
      drop_zeros ring t = t.filter (fun e => !ring.is_0 e.2) := by
    intro t
    induction t with
    | nil => simp [drop_zeros]
    | cons x rest ih =>
        by_cases hx : ring.is_0 x.2 <;>
          simp [drop_zeros, hx, ih, List.filter_cons]
  refine ⟨hf s, ?_⟩
  simp only [hf, List.filter_filter]
  simp

/-- C9: over the boolean field object `GF2`, addition is xor, multiplication
is conjunction, and division returns the dividend unchanged for every
divisor, in particular for divisor `false` (zero). -/
theorem c9_gf2_ops :
    ∀ x y : Bool, GF2.add x y = xor x y ∧ GF2.multiply x y = (x && y) ∧
      GF2.divide x y = x := by
  decide

end Claims1

section Claims2

variable {V : Type}

theorem pivotLookup_eq_none (h : List (Nat × Nat)) (k : Nat) :
    pivotLookup h k = none ↔ k ∉ h.map Prod.fst := by
  simp only [pivotLookup, Option.map_eq_none', List.find?_eq_none,
    List.mem_map, decide_eq_true_eq]
  constructor
  · rintro hall ⟨p, hp, rfl⟩
    exact hall p hp rfl
  · rintro hk p hp rfl
    exact hk ⟨p, hp, rfl⟩

/-- When the inner clearing loop of `right_reduce` returns, either the
clearee is empty or the key of its last entry is not yet in the pivot map:
this is exactly the exit condition of the `while let` loop. -/
theorem reduceClearee_exit (ring : RingOp V) (leE : Nat × V → Nat × V → Bool)
    (matrix : List (List (Nat × V))) (h : List (Nat × Nat)) :
    ∀ (fuel : Nat) (clearee cl' : List (Nat × V)),
      reduceClearee ring leE matrix h fuel clearee = some cl' →
      cl'.getLast? = none ∨
        ∃ e, cl'.getLast? = some e ∧ pivotLookup h e.1 = none := by
  intro fuel
  induction fuel with
  | zero =>
      intro clearee cl' hred
      rw [reduceClearee] at hred
      split at hred
      next hl => cases hred; exact Or.inl hl
      next ce hl =>
        split at hred
        next hlk => cases hred; exact Or.inr ⟨ce, hl, hlk⟩
        next ci hlk =>
          split at hred
          next => cases hred
          next clearor hg =>
            split at hred
            next => cases hred
            next cle hcl => cases hred
  | succ fuel ih =>
      intro clearee cl' hred
      rw [reduceClearee] at hred
      split at hred
      next hl => cases hred; exact Or.inl hl
      next ce hl =>
        split at hred
        next hlk => cases hred; exact Or.inr ⟨ce, hl, hlk⟩
        next ci hlk =>
          split at hred
          next => cases hred
          next clearor hg =>
            split at hred
            next => cases hred
            next cle hcl => exact ih _ _ hred

/-- The outer loop of `right_reduce` preserves distinctness of the keys of
the pivot map: every insertion happens right after the inner loop reported
that the inserted key is absent. -/
theorem rrGo_nodup (ring : RingOp V) (leE : Nat × V → Nat × V → Bool)
    (fuel : Nat) :
    ∀ (count c : Nat) (matrix : List (List (Nat × V)))
      (h : List (Nat × Nat)) (m' : List (List (Nat × V)))
      (h' : List (Nat × Nat)),
      (h.map Prod.fst).Nodup →
      rrGo ring leE fuel count c matrix h = some (m', h') →
      (h'.map Prod.fst).Nodup := by
  intro count
  induction count with
  | zero =>
      intro c matrix h m' h' hnd hrun
      rw [rrGo] at hrun
      cases hrun
      exact hnd
  | succ count ih =>
      intro c matrix h m' h' hnd hrun
      rw [rrGo] at hrun
      split at hrun
      next => cases hrun
      next clearee hred =>
        split at hrun
        next hl => exact ih _ _ _ _ _ hnd hrun
        next pe hl =>
          refine ih _ _ _ _ _ ?_ hrun
          have hexit := reduceClearee_exit ring leE matrix h fuel _ _ hred
          rcases hexit with hnone | ⟨e, he, hek⟩
          · rw [hl] at hnone; cases hnone
          · rw [hl] at he
            cases he
            simp only [pivotInsert, List.map_cons, List.nodup_cons]
            exact ⟨(pivotLookup_eq_none h pe.1).mp hek, hnd⟩

/-- C2: on every run of `right_reduce` that returns, the pivot map is a
partial injection: its keys are pairwise distinct, because each insertion
uses a key absent from the map at that time (the inner loop exit
condition), so no entry is ever overwritten and no two column indices share
a pivot key. -/
theorem c2_pivot_map_injective (ring : RingOp V)
    (leE : Nat × V → Nat × V → Bool) (fuel : Nat)
    (matrix m' : List (List (Nat × V))) (h' : List (Nat × Nat))
    (hrun : right_reduce ring leE fuel matrix = some (m', h')) :
    (h'.map Prod.fst).Nodup :=
  rrGo_nodup ring leE fuel matrix.length 0 matrix [] m' h' (by simp) hrun

/-- Witness for C2 on the concrete reduction example. -/
theorem c2_pivot_map_injective_witness :
    (([ (0, 3), (1, 2), (2, 1), (3, 0) ] : List (Nat × Nat)).map
      Prod.fst).Nodup :=
  c2_pivot_map_injective ratRing pairLe 10
    [ [ (2, (1:ℚ)), (3, -1) ],
      [ (2, 1), (3, 1) ],
      [ (1, 1), (2, 1) ],
      [ (0, 1), (1, 1) ],
      [ (0, 1) ] ]
    [ [ (2, 1), (3, -1) ], [ (2, 2) ], [ (1, 1) ], [ (0, 1) ], [] ]
    [ (0, 3), (1, 2), (2, 1), (3, 0) ]
    (by decide)

/-- Two-sided frame of the outer loop of `right_reduce`: a returning run
over the column window `[c, c + count)` preserves the column count and
leaves every column outside the window — below `c` or at `c + count` and
beyond — exactly as it was. -/
theorem rrGo_frame (ring : RingOp V)
    (leE : Nat × V → Nat × V → Bool) (fuel : Nat) :
    ∀ (count c : Nat) (matrix : List (List (Nat × V)))
      (h : List (Nat × Nat)) (m' : List (List (Nat × V)))
      (h' : List (Nat × Nat)),
      rrGo ring leE fuel count c matrix h = some (m', h') →
      m'.length = matrix.length ∧
        ∀ j, j < c ∨ c + count ≤ j → m'[j]? = matrix[j]? := by
  intro count
  induction count with
  | zero =>
      intro c matrix h m' h' hrun
      rw [rrGo] at hrun
      cases hrun
      exact ⟨rfl, fun j _ => rfl⟩
  | succ count ih =>
      intro c matrix h m' h' hrun
      rw [rrGo] at hrun
      split at hrun
      next => cases hrun
      next clearee hred =>
        have step : ∀ (newcol : List (Nat × V)) (hh : List (Nat × Nat)),
            rrGo ring leE fuel count (c + 1) (matrix.set c newcol) hh =
              some (m', h') →
            m'.length = matrix.length ∧
              ∀ j, j < c ∨ c + (count + 1) ≤ j → m'[j]? = matrix[j]? := by
          intro newcol hh hrec
          obtain ⟨hlen, hfr⟩ := ih _ _ _ _ _ hrec
          refine ⟨by simpa using hlen, ?_⟩
          intro j hj
          rw [hfr j (by omega)]
          exact List.getElem?_set_ne (by omega)
        split at hrun
        next hl => exact step [] h hrun
        next pe hl => exact step clearee (pivotInsert h pe.1 c) hrun

/-- Splitting the outer loop of `right_reduce`: running `k + rest`
iterations from column `c` is running `k` iterations from `c` and, if that
returns, `rest` further iterations from column `c + k` on the result. -/
theorem rrGo_split (ring : RingOp V)
    (leE : Nat × V → Nat × V → Bool) (fuel : Nat) :
    ∀ (k rest c : Nat) (matrix : List (List (Nat × V)))
      (h : List (Nat × Nat)),
      rrGo ring leE fuel (k + rest) c matrix h =
        (rrGo ring leE fuel k c matrix h).bind
          (fun p => rrGo ring leE fuel rest (c + k) p.1 p.2) := by
  intro k
  induction k with
  | zero =>
      intro rest c matrix h
      rw [Nat.zero_add]
      rfl
  | succ k ih =>
      intro rest c matrix h
      rw [Nat.succ_add]
      simp only [rrGo]
      cases hred : reduceClearee ring leE matrix h fuel (matrix.getD c []) with
      | none => rfl
      | some clearee =>
          cases hl : clearee.getLast? with
          | none =>
              simp only [hl]
              rw [ih]
              have hc : c + 1 + k = c + (k + 1) := by omega
              simp only [hc]
          | some pe =>
              simp only [hl]
              rw [ih]
              have hc : c + 1 + k = c + (k + 1) := by omega
              simp only [hc]

/-- C10: over a returning run of the outer loop of `right_reduce` on the
column window `[c, c + count)`, the column count is preserved and every
column outside the window — already finalized below `c`, or beyond the
window — is left exactly as it was; moreover the run splits at every
`k ≤ count` into its first `k` iterations followed by the remaining
`count - k`, where the prefix has not yet touched any column at `c + k` or
beyond and the suffix never modifies a column below `c + k`.  Hence each
column is written only during its own iteration (a single `List.set` at
that index) — untouched before it, fixed after it. -/
theorem c10_right_reduce_frame (ring : RingOp V)
    (leE : Nat × V → Nat × V → Bool) (fuel : Nat)
    (count c : Nat) (matrix : List (List (Nat × V)))
    (h : List (Nat × Nat)) (m' : List (List (Nat × V)))
    (h' : List (Nat × Nat))
    (hrun : rrGo ring leE fuel count c matrix h = some (m', h')) :
    m'.length = matrix.length ∧
    (∀ j, j < c ∨ c + count ≤ j → m'[j]? = matrix[j]?) ∧
    (∀ k, k ≤ count → ∃ mk hk,
      rrGo ring leE fuel k c matrix h = some (mk, hk) ∧
      rrGo ring leE fuel (count - k) (c + k) mk hk = some (m', h') ∧
      (∀ j, c + k ≤ j → mk[j]? = matrix[j]?) ∧
      (∀ j, j < c + k → m'[j]? = mk[j]?)) := by
  obtain ⟨hlen, hfr⟩ := rrGo_frame ring leE fuel count c matrix h m' h' hrun
  refine ⟨hlen, hfr, ?_⟩
  intro k hk
  have hsplit := rrGo_split ring leE fuel k (count - k) c matrix h
  have hck : k + (count - k) = count := by omega
  rw [hck] at hsplit
  rw [hsplit] at hrun
  cases hpre : rrGo ring leE fuel k c matrix h with
  | none =>
      rw [hpre] at hrun
      simp at hrun
  | some p =>
      obtain ⟨mk, hk2⟩ := p
      rw [hpre] at hrun
      have hsuf : rrGo ring leE fuel (count - k) (c + k) mk hk2
          = some (m', h') := hrun
      obtain ⟨_, hfrk⟩ := rrGo_frame ring leE fuel k c matrix h mk hk2 hpre
      obtain ⟨_, hfrs⟩ :=
        rrGo_frame ring leE fuel (count - k) (c + k) mk hk2 m' h' hsuf
      exact ⟨mk, hk2, rfl, hsuf, fun j hj => hfrk j (Or.inr hj),
        fun j hj => hfrs j (Or.inl hj)⟩

/-- Witness for C10: reducing the second column of a concrete two-column
matrix leaves the first (already processed) column untouched, the column
count is preserved, and the run splits at every prefix. -/
theorem c10_right_reduce_frame_witness :
    ([ [ (0, (1:ℚ)) ], [] ] : List (List (Nat × ℚ))).length =
      ([ [ (0, (1:ℚ)) ], [ (0, 1) ] ] : List (List (Nat × ℚ))).length ∧
    (∀ j, j < 1 ∨ 1 + 1 ≤ j →
      ([ [ (0, (1:ℚ)) ], [] ] : List (List (Nat × ℚ)))[j]? =
        ([ [ (0, (1:ℚ)) ], [ (0, 1) ] ] : List (List (Nat × ℚ)))[j]?) ∧
    (∀ k, k ≤ 1 → ∃ mk hk,
      rrGo ratRing pairLe 2 k 1
          [ [ (0, (1:ℚ)) ], [ (0, 1) ] ] [ (0, 0) ] = some (mk, hk) ∧
      rrGo ratRing pairLe 2 (1 - k) (1 + k) mk hk
          = some ([ [ (0, (1:ℚ)) ], [] ], [ (0, 0) ]) ∧
      (∀ j, 1 + k ≤ j →
        mk[j]? = ([ [ (0, (1:ℚ)) ], [ (0, 1) ] ] : List (List (Nat × ℚ)))[j]?) ∧
      (∀ j, j < 1 + k →
        ([ [ (0, (1:ℚ)) ], [] ] : List (List (Nat × ℚ)))[j]? = mk[j]?)) :=
  c10_right_reduce_frame ratRing pairLe 2 1 1
    [ [ (0, (1:ℚ)) ], [ (0, 1) ] ] [ (0, 0) ]
    [ [ (0, (1:ℚ)) ], [] ] [ (0, 0) ] (by decide)

end Claims2

section Heap

variable {β : Type}

/-- `parent_or_0` of `utilities/heaps/heap.rs`. -/
def parent_or_0 (m : Nat) : Nat := if m = 0 then 0 else (m - 1) / 2

/-- `child_a` of `utilities/heaps/heap.rs`. -/
def child_a (m : Nat) : Nat := 2 * m + 1

/-- `child_b` of `utilities/heaps/heap.rs`. -/
def child_b (m : Nat) : Nat := 2 * m + 2

/-- `Vec::swap` on a list: exchange the entries at two positions. -/
def listSwap (l : List β) (i j : Nat) : List β :=
  match l[i]?, l[j]? with
  | some a, some b => (l.set i b).set j a
  | _, _ => l

/-- `sift_down` of `utilities/heaps/heap.rs`, with structural fuel: the
while loop walks down the tree, at each node picking the smaller child and
swapping when the child compares below the current node.  Every caller
passes fuel at least the list length, which the walk can never exhaust
because the position at least doubles each step. -/
def sift_downF (cmp : β → β → Bool) : Nat → List β → Nat → List β
  | 0, l, _ => l
  | fuel + 1, l, pos =>
    match l[pos]?, l[child_a pos]? with
    | some vp, some vc =>
      match l[child_b pos]? with
      | some vr =>
        if cmp vr vc then
          if cmp vr vp then
            sift_downF cmp fuel (listSwap l pos (child_b pos)) (child_b pos)
          else l
        else
          if cmp vc vp then
            sift_downF cmp fuel (listSwap l pos (child_a pos)) (child_a pos)
          else l
      | none =>
        if cmp vc vp then
          sift_downF cmp fuel (listSwap l pos (child_a pos)) (child_a pos)
        else l
    | _, _ => l

/-- `sift_down` with its canonical fuel. -/
def sift_down (cmp : β → β → Bool) (l : List β) (pos : Nat) : List β :=
  sift_downF cmp l.length l pos

/-- The loop `for i in (0..data.len() / 2).rev()` of `heapify`:
`heapifyGo cmp i l` sifts down positions `i - 1, i - 2, ..., 0`. -/
def heapifyGo (cmp : β → β → Bool) : Nat → List β → List β
  | 0, l => l
  | i + 1, l => heapifyGo cmp i (sift_down cmp l i)

/-- `heapify` of `utilities/heaps/heap.rs`. -/
def heapify (cmp : β → β → Bool) (l : List β) : List β :=
  heapifyGo cmp (l.length / 2) l

/-- Sift down every position of a list of positions, in order
(the body `for i in (left..right + 1).rev()` of `heapify_tail`). -/
def siftList (cmp : β → β → Bool) (ps : List Nat) (l : List β) : List β :=
  ps.foldl (fun acc i => sift_down cmp acc i) l

/-- The positions `left, ..., right` in descending order, i.e. the
iterator `(left..right + 1).rev()`. -/
def revRange (left right : Nat) : List Nat :=
  (List.range' left (right + 1 - left)).reverse

/-- The `while right != 0` loop of `heapify_tail`, with structural fuel:
each pass replaces `left` and `right` by their parents and sifts the
positions between them, descending.  `right` strictly decreases, so fuel
exceeding the initial `right` is never exhausted. -/
def heapifyTailGo (cmp : β → β → Bool) : Nat → Nat → Nat → List β → List β
  | 0, _, _, l => l
  | fuel + 1, left, right, l =>
    if right = 0 then l
    else
      heapifyTailGo cmp fuel (parent_or_0 left) (parent_or_0 right)
        (siftList cmp (revRange (parent_or_0 left) (parent_or_0 right)) l)

/-- `heapify_tail` of `utilities/heaps/heap.rs`: heapify assuming the
prefix `data[0..tail_base]` is already a heap, walking parent rows bottom
to top from the appended region (Elmasry-Katajainen tail heapify). -/
def heapify_tail (cmp : β → β → Bool) (l : List β) (tail_base : Nat) :
    List β :=
  if tail_base ≥ l.length then l
  else if l.length < 2 then l
  else
    heapifyTailGo cmp l.length
      (max tail_base (parent_or_0 (l.length - 1))) (l.length - 1) l

end Heap

section Hit

variable {α : Type}

/-- `HeadTail::new` of `utilities/iterators/hit_merge.rs`: a nonempty
stream splits into its first item and the remaining stream. -/
def htNew : List α → Option (α × List α)
  | [] => none
  | x :: xs => some (x, xs)

/-- The comparator on heap records: `less_than` applied to the heads. -/
def headCmp (lt : α → α → Bool) (a b : α × List α) : Bool := lt a.1 b.1

/-- `hit_merge_by_predicate` of `utilities/iterators/hit_merge.rs`: drop
empty streams, pair each survivor into a head/tail record, and heapify by
`less_than` on heads.  The resulting list of records is the heap state of
the `HitMerge` iterator. -/
def hit_merge_by_predicate (lt : α → α → Bool) (streams : List (List α)) :
    List (α × List α) :=
  heapify (headCmp lt) (streams.filterMap htNew)

/-- `Vec::swap_remove(0)`: remove the root record and move the last record
into its place. -/
def swapRemoveFront : List β → List β
  | [] => []
  | _ :: rest =>
    match rest.getLast? with
    | none => []
    | some last => last :: rest.dropLast

/-- `HitMerge::next`: emit the head of the root record; if the root stream
has another item it becomes the new head, otherwise the record is removed
by `swap_remove`; in both cases the root is restored by one sift down. -/
def hitNext (lt : α → α → Bool) (state : List (α × List α)) :
    Option (α × List (α × List α)) :=
  match state with
  | [] => none
  | ht :: rest =>
    match ht.2 with
    | t :: ts => some (ht.1, sift_down (headCmp lt) ((t, ts) :: rest) 0)
    | [] => some (ht.1, sift_down (headCmp lt) (swapRemoveFront (ht :: rest)) 0)

/-- All items still held by the heap state, root record first, each record
contributing its head followed by its tail. -/
def hitContents (state : List (α × List α)) : List α :=
  (state.map (fun s => s.1 :: s.2)).flatten

/-- Number of items still held by the heap state. -/
def hitSize (state : List (α × List α)) : Nat := (hitContents state).length

/-- Fuelled drain of the `HitMerge` iterator. -/
def hitDrainF (lt : α → α → Bool) : Nat → List (α × List α) → List α
  | 0, _ => []
  | fuel + 1, state =>
    match hitNext lt state with
    | none => []
    | some p => p.1 :: hitDrainF lt fuel p.2

/-- Drain of the `HitMerge` iterator: pop until exhausted.  Each `next`
removes exactly one item, so `hitSize` fuel suffices. -/
def hitDrain (lt : α → α → Bool) (state : List (α × List α)) : List α :=
  hitDrainF lt (hitSize state) state

/-- `hit_bulk_insert` of `utilities/iterators/hit_merge.rs`: append the
head/tail records of the nonempty new streams and re-heapify only the tail
starting at the old length. -/
def hit_bulk_insert (lt : α → α → Bool) (merged : List (α × List α))
    (streams : List (List α)) : List (α × List α) :=
  heapify_tail (headCmp lt) (merged ++ streams.filterMap htNew) merged.length

/-- Building the merge and draining it in one go. -/
def hitMergeDrain (lt : α → α → Bool) (streams : List (List α)) : List α :=
  hitDrain lt (hit_merge_by_predicate lt streams)

end Hit

section TreeIndex

/-- `j` lies in the subtree rooted at `i` of the 0-indexed binary heap:
either `j = i` or the parent chain of `j` passes through `i`. -/
def isDesc (i : Nat) (j : Nat) : Bool :=
  if j = i then true
  else if j = 0 then false
  else isDesc i (parent_or_0 j)
  termination_by j
  decreasing_by
    rename_i h1 h2
    simp only [parent_or_0, if_neg h2]
    omega

theorem parent_or_0_le (j : Nat) : parent_or_0 j ≤ j := by
  unfold parent_or_0; split <;> omega

theorem parent_or_0_lt {j : Nat} (h : j ≠ 0) : parent_or_0 j < j := by
  unfold parent_or_0; split <;> omega

theorem parent_or_0_mono {a b : Nat} (h : a ≤ b) :
    parent_or_0 a ≤ parent_or_0 b := by
  unfold parent_or_0; split <;> split <;> omega

theorem parent_child_a (p : Nat) : parent_or_0 (child_a p) = p := by
  unfold parent_or_0 child_a; split <;> omega

theorem parent_child_b (p : Nat) : parent_or_0 (child_b p) = p := by
  unfold parent_or_0 child_b; split <;> omega

theorem child_of_parent {j p : Nat} (h0 : j ≠ 0) (h : parent_or_0 j = p) :
    j = child_a p ∨ j = child_b p := by
  unfold parent_or_0 at h
  unfold child_a child_b
  rw [if_neg h0] at h
  omega

theorem desc_self (i : Nat) : isDesc i i = true := by
  rw [isDesc]; simp

theorem desc_ge {i : Nat} : ∀ {j}, isDesc i j = true → i ≤ j := by
  intro j
  induction j using Nat.strong_induction_on with
  | _ j ih =>
      intro h
      rw [isDesc] at h
      split at h
      · omega
      · split at h
        · cases h
        · rename_i hji hj0
          exact le_trans (ih _ (parent_or_0_lt hj0) h) (parent_or_0_le j)

theorem desc_step {i j : Nat} (hne : j ≠ i) (h : isDesc i j = true) :
    isDesc i (parent_or_0 j) = true ∧ j ≠ 0 := by
  rw [isDesc] at h
  rw [if_neg hne] at h
  split at h
  · cases h
  · exact ⟨h, by assumption⟩

theorem desc_lift {i j : Nat} (h0 : j ≠ 0)
    (h : isDesc i (parent_or_0 j) = true) : isDesc i j = true := by
  by_cases hji : j = i
  · rw [isDesc, if_pos hji]
  · rw [isDesc, if_neg hji, if_neg h0]
    exact h

theorem desc_trans {i j : Nat} : ∀ {k}, isDesc i j = true →
    isDesc j k = true → isDesc i k = true := by
  intro k
  induction k using Nat.strong_induction_on with
  | _ k ih =>
      intro hij hjk
      by_cases hkj : k = j
      · subst hkj; exact hij
      · obtain ⟨hp, hk0⟩ := desc_step hkj hjk
        exact desc_lift hk0 (ih _ (parent_or_0_lt hk0) hij hp)

theorem desc_child_a (p : Nat) : isDesc p (child_a p) = true :=
  desc_lift (by unfold child_a; omega)
    (by rw [parent_child_a]; exact desc_self p)

theorem desc_child_b (p : Nat) : isDesc p (child_b p) = true :=
  desc_lift (by unfold child_b; omega)
    (by rw [parent_child_b]; exact desc_self p)

theorem desc_child_cases {p : Nat} : ∀ {j}, isDesc p j = true → j ≠ p →
    isDesc (child_a p) j = true ∨ isDesc (child_b p) j = true := by
  intro j
  induction j using Nat.strong_induction_on with
  | _ j ih =>
      intro hd hne
      obtain ⟨hp, hj0⟩ := desc_step hne hd
      by_cases hpp : parent_or_0 j = p
      · rcases child_of_parent hj0 hpp with hc | hc
        · exact Or.inl (hc ▸ desc_self _)
        · exact Or.inr (hc ▸ desc_self _)
      · rcases ih _ (parent_or_0_lt hj0) hp hpp with hc | hc
        · exact Or.inl (desc_lift hj0 hc)
        · exact Or.inr (desc_lift hj0 hc)

theorem desc_antisymm {i j : Nat} (h1 : isDesc i j = true)
    (h2 : isDesc j i = true) : i = j :=
  le_antisymm (desc_ge h1) (desc_ge h2)

theorem nested_or_disjoint {i j : Nat} : ∀ {k}, isDesc i k = true →
    isDesc j k = true → isDesc i j = true ∨ isDesc j i = true := by
  intro k
  induction k using Nat.strong_induction_on with
  | _ k ih =>
      intro hik hjk
      by_cases hki : k = i
      · subst hki; exact Or.inr hjk
      · by_cases hkj : k = j
        · subst hkj; exact Or.inl hik
        · obtain ⟨hpi, hk0⟩ := desc_step hki hik
          obtain ⟨hpj, _⟩ := desc_step hkj hjk
          exact ih _ (parent_or_0_lt hk0) hpi hpj

theorem proper_desc_ge_child {p j : Nat} (hd : isDesc p j = true)
    (hne : j ≠ p) : child_a p ≤ j := by
  rcases desc_child_cases hd hne with hc | hc
  · exact desc_ge hc
  · have := desc_ge hc
    unfold child_a child_b at *
    omega

theorem sibling_not_desc_ab (p : Nat) :
    isDesc (child_a p) (child_b p) = false := by
  by_contra h
  rw [Bool.not_eq_false] at h
  obtain ⟨hp, _⟩ := desc_step (by unfold child_a child_b; omega) h
  rw [parent_child_b] at hp
  have := desc_ge hp
  unfold child_a at this
  omega

theorem sibling_not_desc_ba (p : Nat) :
    isDesc (child_b p) (child_a p) = false := by
  by_contra h
  rw [Bool.not_eq_false] at h
  have := desc_ge h
  unfold child_a child_b at this
  omega

theorem desc_zero (j : Nat) : isDesc 0 j = true := by
  induction j using Nat.strong_induction_on with
  | _ j ih =>
      by_cases hj : j = 0
      · subst hj; exact desc_self 0
      · exact desc_lift hj (ih _ (parent_or_0_lt hj))

end TreeIndex

section SwapLemmas

variable {β : Type}

theorem getElem?_some_of_lt {l : List β} {i : Nat} (h : i < l.length) :
    ∃ a, l[i]? = some a :=
  ⟨l[i], List.getElem?_eq_getElem h⟩

theorem lt_of_getElem?_some {l : List β} {i : Nat} {a : β}
    (h : l[i]? = some a) : i < l.length := by
  by_contra hge
  rw [List.getElem?_eq_none (by omega)] at h
  cases h

theorem listSwap_length (l : List β) (i j : Nat) :
    (listSwap l i j).length = l.length := by
  cases ha : l[i]? with
  | none => simp [listSwap, ha]
  | some a =>
      cases hb : l[j]? with
      | none => simp [listSwap, ha, hb]
      | some b => simp [listSwap, ha, hb]

theorem listSwap_get_ne (l : List β) {i j k : Nat} (hki : k ≠ i)
    (hkj : k ≠ j) : (listSwap l i j)[k]? = l[k]? := by
  cases ha : l[i]? with
  | none => simp [listSwap, ha]
  | some a =>
      cases hb : l[j]? with
      | none => simp [listSwap, ha, hb]
      | some b =>
          simp only [listSwap, ha, hb]
          rw [List.getElem?_set_ne (by omega), List.getElem?_set_ne (by omega)]

theorem listSwap_get_left (l : List β) {i j : Nat} (hi : i < l.length)
    (hj : j < l.length) : (listSwap l i j)[i]? = l[j]? := by
  obtain ⟨a, ha⟩ := getElem?_some_of_lt hi
  obtain ⟨b, hb⟩ := getElem?_some_of_lt hj
  simp only [listSwap, ha, hb]
  by_cases hij : i = j
  · subst hij
    rw [List.getElem?_set_eq_of_lt _ (by simpa using hi)]
    rw [ha] at hb
    exact hb
  · rw [List.getElem?_set_ne (by omega),
      List.getElem?_set_eq_of_lt _ (by simpa using hi)]

theorem listSwap_get_right (l : List β) {i j : Nat} (hi : i < l.length)
    (hj : j < l.length) : (listSwap l i j)[j]? = l[i]? := by
  obtain ⟨a, ha⟩ := getElem?_some_of_lt hi
  obtain ⟨b, hb⟩ := getElem?_some_of_lt hj
  simp only [listSwap, ha, hb]
  rw [List.getElem?_set_eq_of_lt _ (by simpa using hj)]

theorem set_head_perm : ∀ (t : List β) (k : Nat) (x : β) (a : β),
    t[k]? = some a → List.Perm (a :: t.set k x) (x :: t) := by
  intro t
  induction t with
  | nil => intro k x a ha; cases ha
  | cons y s ih =>
      intro k x a ha
      cases k with
      | zero =>
          simp only [List.getElem?_cons_zero, Option.some_inj] at ha
          subst ha
          simpa [List.set] using List.Perm.swap x y s
      | succ k =>
          simp only [List.getElem?_cons_succ] at ha
          have h1 : List.Perm (a :: y :: s.set k x) (y :: a :: s.set k x) :=
            List.Perm.swap y a (s.set k x)
          have h2 : List.Perm (y :: a :: s.set k x) (y :: x :: s) :=
            List.Perm.cons _ (ih k x a ha)
          have h3 : List.Perm (y :: x :: s) (x :: y :: s) :=
            List.Perm.swap x y s
          simpa [List.set] using (h1.trans h2).trans h3

theorem swap_perm_aux : ∀ (l : List β) (i j : Nat) (a b : β), i < j →
    l[i]? = some a → l[j]? = some b →
    List.Perm ((l.set i b).set j a) l := by
  intro l
  induction l with
  | nil => intro i j a b _ ha _; cases ha
  | cons y s ih =>
      intro i j a b hij ha hb
      cases i with
      | zero =>
          simp only [List.getElem?_cons_zero, Option.some_inj] at ha
          subst ha
          cases j with
          | zero => omega
          | succ k =>
              simp only [List.getElem?_cons_succ] at hb
              simpa [List.set] using set_head_perm s k y b hb
      | succ i =>
          cases j with
          | zero => omega
          | succ k =>
              simp only [List.getElem?_cons_succ] at ha hb
              simpa [List.set] using
                List.Perm.cons y (ih i k a b (by omega) ha hb)

theorem set_getElem_self_eq {l : List β} {i : Nat} {a : β}
    (ha : l[i]? = some a) : l.set i a = l := by
  apply List.ext_getElem?
  intro n
  by_cases hn : n = i
  · subst hn
    rw [List.getElem?_set_eq_of_lt _ (lt_of_getElem?_some ha)]
    exact ha.symm
  · exact List.getElem?_set_ne (by omega)

theorem listSwap_perm (l : List β) (i j : Nat) :
    List.Perm (listSwap l i j) l := by
  cases ha : l[i]? with
  | none => simp [listSwap, ha]
  | some a =>
      cases hb : l[j]? with
      | none => simp [listSwap, ha, hb]
      | some b =>
          simp only [listSwap, ha, hb]
          rcases lt_trichotomy i j with hij | hij | hij
          · exact swap_perm_aux l i j a b hij ha hb
          · subst hij
            rw [List.set_set]
            rw [ha] at hb
            cases hb
            rw [set_getElem_self_eq ha]
          · rw [List.set_comm _ _ _ (by omega)]
            exact swap_perm_aux l j i b a hij hb ha

end SwapLemmas


section HeapProofs

variable {β : Type}

/-- The heap-edge condition at position `j`: the entry at `j` never compares
strictly below the entry at its parent. -/
def edgeOk (cmp : β → β → Bool) (l : List β) (j : Nat) : Prop :=
  ∀ a b, l[j]? = some a → l[parent_or_0 j]? = some b → cmp a b = false

/-- The subtree rooted at `i` satisfies the heap property: every edge whose
lower endpoint lies properly inside the subtree is in order. -/
def STH (cmp : β → β → Bool) (i : Nat) (l : List β) : Prop :=
  ∀ j, isDesc i j = true → j ≠ i → edgeOk cmp l j

/-- Asymmetry of a comparator. -/
def CmpAsym (cmp : β → β → Bool) : Prop :=
  ∀ x y, cmp x y = true → cmp y x = false

/-- Negative transitivity of a comparator (transitivity of the complement
order, read "not above"). -/
def CmpNegTrans (cmp : β → β → Bool) : Prop :=
  ∀ x y z, cmp y x = false → cmp z y = false → cmp z x = false

theorem STH_sub {cmp : β → β → Bool} {i k : Nat} {l : List β}
    (h : STH cmp i l) (hk : isDesc i k = true) : STH cmp k l := by
  intro j hj hne
  by_cases hji : j = i
  · subst hji
    exact absurd (desc_antisymm hk hj) hne
  · exact h j (desc_trans hk hj) hji

theorem STH_congr {cmp : β → β → Bool} {k : Nat} {l l' : List β}
    (hsame : ∀ q, isDesc k q = true → l'[q]? = l[q]?)
    (h : STH cmp k l) : STH cmp k l' := by
  intro j hj hne a b ha hb
  have hpj : isDesc k (parent_or_0 j) = true := (desc_step hne hj).1
  refine h j hj hne a b ?_ ?_
  · rw [← hsame j hj]; exact ha
  · rw [← hsame _ hpj]; exact hb

theorem STH_of_no_children {cmp : β → β → Bool} {i : Nat} {l : List β}
    (h : l.length ≤ child_a i) : STH cmp i l := by
  intro j hj hne a b ha _
  have h1 := proper_desc_ge_child hj hne
  have h2 := lt_of_getElem?_some ha
  omega

theorem cmp_irrefl {cmp : β → β → Bool} (hasym : CmpAsym cmp) (x : β) :
    cmp x x = false := by
  by_contra hc
  rw [Bool.not_eq_false] at hc
  have h2 := hasym x x hc
  rw [h2] at hc
  cases hc

theorem root_min {cmp : β → β → Bool} (hasym : CmpAsym cmp)
    (hneg : CmpNegTrans cmp) {k : Nat} {l : List β} (h : STH cmp k l) :
    ∀ j, isDesc k j = true → ∀ a rt, l[j]? = some a → l[k]? = some rt →
      cmp a rt = false := by
  intro j
  induction j using Nat.strong_induction_on with
  | _ j ih =>
      intro hdesc a rt ha hrt
      by_cases hjk : j = k
      · subst hjk
        rw [ha] at hrt
        cases hrt
        exact cmp_irrefl hasym a
      · obtain ⟨hp, hj0⟩ := desc_step hjk hdesc
        have hplt : parent_or_0 j < l.length :=
          lt_trans (parent_or_0_lt hj0) (lt_of_getElem?_some ha)
        obtain ⟨vp, hvp⟩ := getElem?_some_of_lt hplt
        have h1 : cmp a vp = false := h j hdesc hjk a vp ha hvp
        have h2 : cmp vp rt = false :=
          ih _ (parent_or_0_lt hj0) hp vp rt hvp hrt
        exact hneg rt vp a h2 h1

theorem STH_assemble {cmp : β → β → Bool} {p : Nat} {l : List β}
    (ha : STH cmp (child_a p) l) (hb : STH cmp (child_b p) l)
    (ea : edgeOk cmp l (child_a p)) (eb : edgeOk cmp l (child_b p)) :
    STH cmp p l := by
  intro j hj hne
  rcases desc_child_cases hj hne with hc | hc
  · by_cases hj2 : j = child_a p
    · subst hj2; exact ea
    · exact ha j hc hj2
  · by_cases hj2 : j = child_b p
    · subst hj2; exact eb
    · exact hb j hc hj2

theorem sift_downF_perm (cmp : β → β → Bool) :
    ∀ (fuel : Nat) (l : List β) (pos : Nat),
      List.Perm (sift_downF cmp fuel l pos) l := by
  intro fuel
  induction fuel with
  | zero => intro l pos; exact List.Perm.refl l
  | succ fuel ih =>
      intro l pos
      simp only [sift_downF]
      split
      · split
        · split
          · split
            · exact (ih _ _).trans (listSwap_perm l pos (child_b pos))
            · exact List.Perm.refl l
          · split
            · exact (ih _ _).trans (listSwap_perm l pos (child_a pos))
            · exact List.Perm.refl l
        · split
          · exact (ih _ _).trans (listSwap_perm l pos (child_a pos))
          · exact List.Perm.refl l
      · exact List.Perm.refl l

theorem sift_downF_length (cmp : β → β → Bool) (fuel : Nat) (l : List β)
    (pos : Nat) : (sift_downF cmp fuel l pos).length = l.length :=
  (sift_downF_perm cmp fuel l pos).length_eq

theorem sift_downF_frame (cmp : β → β → Bool) :
    ∀ (fuel : Nat) (l : List β) (pos q : Nat), isDesc pos q = false →
      (sift_downF cmp fuel l pos)[q]? = l[q]? := by
  intro fuel
  induction fuel with
  | zero => intro l pos q _; rfl
  | succ fuel ih =>
      intro l pos q hq
      have hqpos : q ≠ pos := by
        intro he; rw [he, desc_self] at hq; cases hq
      have hstep : ∀ c, (c = child_a pos ∨ c = child_b pos) →
          (sift_downF cmp fuel (listSwap l pos c) c)[q]? = l[q]? := by
        intro c hc
        have hdc : isDesc pos c = true := by
          rcases hc with rfl | rfl
          · exact desc_child_a pos
          · exact desc_child_b pos
        have hqc : isDesc c q = false := by
          by_contra hcq
          rw [Bool.not_eq_false] at hcq
          rw [desc_trans hdc hcq] at hq
          cases hq
        have hqc2 : q ≠ c := by
          intro he; rw [he, desc_self] at hqc; cases hqc
        rw [ih _ _ _ hqc]
        exact listSwap_get_ne l hqpos hqc2
      simp only [sift_downF]
      split
      · split
        · split
          · split
            · exact hstep _ (Or.inr rfl)
            · rfl
          · split
            · exact hstep _ (Or.inl rfl)
            · rfl
        · split
          · exact hstep _ (Or.inl rfl)
          · rfl
      · rfl

theorem sift_downF_id {cmp : β → β → Bool} :
    ∀ (fuel : Nat) (l : List β) (pos : Nat), STH cmp pos l →
      sift_downF cmp fuel l pos = l := by
  intro fuel
  induction fuel with
  | zero => intro l pos _; rfl
  | succ fuel _ =>
      intro l pos hsth
      have hedge : ∀ c vc vp, (c = child_a pos ∨ c = child_b pos) →
          l[c]? = some vc → l[pos]? = some vp → cmp vc vp = false := by
        intro c vc vp hc hvc hvp
        have hdc : isDesc pos c = true := by
          rcases hc with rfl | rfl
          · exact desc_child_a pos
          · exact desc_child_b pos
        have hcp : c ≠ pos := by
          rcases hc with rfl | rfl
          · unfold child_a; omega
          · unfold child_b; omega
        refine hsth c hdc hcp vc vp hvc ?_
        rcases hc with rfl | rfl
        · rw [parent_child_a]; exact hvp
        · rw [parent_child_b]; exact hvp
      simp only [sift_downF]
      split
      · rename_i vp vc hp hc
        split
        · rename_i vr hr
          split
          · rw [hedge _ vr vp (Or.inr rfl) hr hp]; simp
          · rw [hedge _ vc vp (Or.inl rfl) hc hp]; simp
        · rw [hedge _ vc vp (Or.inl rfl) hc hp]; simp
      · rfl

end HeapProofs


section SiftMain

variable {β : Type}

theorem sibling_pair_not_desc {pos c1 c2 : Nat}
    (hpair : (c1 = child_a pos ∧ c2 = child_b pos) ∨
             (c1 = child_b pos ∧ c2 = child_a pos)) :
    isDesc c1 c2 = false := by
  rcases hpair with ⟨rfl, rfl⟩ | ⟨rfl, rfl⟩
  · exact sibling_not_desc_ab pos
  · exact sibling_not_desc_ba pos

theorem STH_assemble_pair {cmp : β → β → Bool} {pos c1 c2 : Nat} {l : List β}
    (hpair : (c1 = child_a pos ∧ c2 = child_b pos) ∨
             (c1 = child_b pos ∧ c2 = child_a pos))
    (h1 : STH cmp c1 l) (h2 : STH cmp c2 l)
    (e1 : edgeOk cmp l c1) (e2 : edgeOk cmp l c2) : STH cmp pos l := by
  rcases hpair with ⟨rfl, rfl⟩ | ⟨rfl, rfl⟩
  · exact STH_assemble h1 h2 e1 e2
  · exact STH_assemble h2 h1 e2 e1

theorem child_parent_of_pair {pos c1 c2 : Nat}
    (hpair : (c1 = child_a pos ∧ c2 = child_b pos) ∨
             (c1 = child_b pos ∧ c2 = child_a pos)) :
    parent_or_0 c1 = pos ∧ parent_or_0 c2 = pos ∧ pos < c1 ∧ pos < c2 ∧
      isDesc pos c1 = true ∧ isDesc pos c2 = true ∧ c1 ≠ c2 := by
  rcases hpair with ⟨rfl, rfl⟩ | ⟨rfl, rfl⟩
  · exact ⟨parent_child_a pos, parent_child_b pos,
      by unfold child_a; omega, by unfold child_b; omega,
      desc_child_a pos, desc_child_b pos, by unfold child_a child_b; omega⟩
  · exact ⟨parent_child_b pos, parent_child_a pos,
      by unfold child_b; omega, by unfold child_a; omega,
      desc_child_b pos, desc_child_a pos, by unfold child_a child_b; omega⟩

theorem sift_swap_case {cmp : β → β → Bool} (hasym : CmpAsym cmp)
    (hneg : CmpNegTrans cmp) (fuel : Nat)
    (IH : ∀ (l : List β) (pos : Nat), l.length ≤ pos + fuel →
      STH cmp (child_a pos) l → STH cmp (child_b pos) l →
      STH cmp pos (sift_downF cmp fuel l pos) ∧
      (∀ bnd, (∀ j a, isDesc pos j = true → l[j]? = some a →
          cmp a bnd = false) →
        ∀ r, (sift_downF cmp fuel l pos)[pos]? = some r → cmp r bnd = false))
    (l : List β) (pos c1 c2 : Nat) (vp w : β)
    (hpair : (c1 = child_a pos ∧ c2 = child_b pos) ∨
             (c1 = child_b pos ∧ c2 = child_a pos))
    (hp : l[pos]? = some vp) (hw : l[c1]? = some w)
    (hswp : cmp w vp = true)
    (hoc : ∀ ov, l[c2]? = some ov → cmp ov w = false)
    (hca : STH cmp (child_a pos) l) (hcb : STH cmp (child_b pos) l)
    (hfuel : l.length ≤ pos + (fuel + 1)) :
    STH cmp pos (sift_downF cmp fuel (listSwap l pos c1) c1) ∧
    (∀ bnd, (∀ j a, isDesc pos j = true → l[j]? = some a →
        cmp a bnd = false) →
      ∀ r, (sift_downF cmp fuel (listSwap l pos c1) c1)[pos]? = some r →
        cmp r bnd = false) := by
  obtain ⟨hpar1, hpar2, hlt1, hlt2, hd1, hd2, hne12⟩ := child_parent_of_pair hpair
  have hposlt : pos < l.length := lt_of_getElem?_some hp
  have hc1lt : c1 < l.length := lt_of_getElem?_some hw
  have hS1 : STH cmp c1 l := by
    rcases hpair with ⟨h1, _⟩ | ⟨h1, _⟩
    · exact h1 ▸ hca
    · exact h1 ▸ hcb
  have hS2 : STH cmp c2 l := by
    rcases hpair with ⟨_, h2⟩ | ⟨_, h2⟩
    · exact h2 ▸ hcb
    · exact h2 ▸ hca
  have hlen' : (listSwap l pos c1).length = l.length := listSwap_length l pos c1
  have hsub : ∀ c, (c = child_a c1 ∨ c = child_b c1) →
      STH cmp c (listSwap l pos c1) := by
    intro c hc
    have hcc1 : isDesc c1 c = true ∧ c1 < c := by
      rcases hc with rfl | rfl
      · exact ⟨desc_child_a c1, by unfold child_a; omega⟩
      · exact ⟨desc_child_b c1, by unfold child_b; omega⟩
    refine STH_congr (fun q hq => ?_) (STH_sub hS1 hcc1.1)
    have hq1 : c ≤ q := desc_ge hq
    exact listSwap_get_ne l (by omega) (by omega)
  obtain ⟨ihS, ihB⟩ := IH (listSwap l pos c1) c1
    (by rw [hlen']; omega)
    (hsub _ (Or.inl rfl)) (hsub _ (Or.inr rfl))
  have hfr : isDesc c1 pos = false := by
    by_contra hcp
    rw [Bool.not_eq_false] at hcp
    have := desc_ge hcp
    omega
  have hrpos : (sift_downF cmp fuel (listSwap l pos c1) c1)[pos]? = some w := by
    rw [sift_downF_frame cmp fuel _ c1 pos hfr,
      listSwap_get_left l hposlt hc1lt]
    exact hw
  have hpre : ∀ j a, isDesc c1 j = true → (listSwap l pos c1)[j]? = some a →
      cmp a w = false := by
    intro j a hj ha
    by_cases hjc : j = c1
    · subst hjc
      rw [listSwap_get_right l hposlt hc1lt, hp] at ha
      cases ha
      exact hasym w vp hswp
    · have hj1 : c1 ≤ j := desc_ge hj
      have hjne : c1 < j := lt_of_le_of_ne hj1 (fun h => hjc h.symm)
      rw [listSwap_get_ne l (by omega) (by omega)] at ha
      exact root_min hasym hneg hS1 j hj a w ha hw
  have hbnd_c1 : ∀ r, (sift_downF cmp fuel (listSwap l pos c1) c1)[c1]? =
      some r → cmp r w = false := ihB w hpre
  constructor
  · have hd12 : isDesc c1 c2 = false := sibling_pair_not_desc hpair
    have hd21 : isDesc c2 c1 = false := by
      refine @sibling_pair_not_desc pos c2 c1 ?_
      rcases hpair with ⟨h1, h2⟩ | ⟨h1, h2⟩
      · exact Or.inr ⟨h2, h1⟩
      · exact Or.inl ⟨h2, h1⟩
    have hS2' : STH cmp c2 (sift_downF cmp fuel (listSwap l pos c1) c1) := by
      have step1 : STH cmp c2 (listSwap l pos c1) := by
        refine STH_congr (fun q hq => ?_) hS2
        have hq2 : c2 ≤ q := desc_ge hq
        have hqc1 : q ≠ c1 := by
          intro he
          subst he
          rw [hq] at hd21
          cases hd21
        exact listSwap_get_ne l (by omega) hqc1
      refine STH_congr (fun q hq => ?_) step1
      refine sift_downF_frame cmp fuel _ c1 q ?_
      by_contra hq1
      rw [Bool.not_eq_false] at hq1
      rcases nested_or_disjoint hq hq1 with hn | hn
      · rw [hn] at hd21; cases hd21
      · rw [hn] at hd12; cases hd12
    refine STH_assemble_pair hpair ihS hS2' ?_ ?_
    · intro a b ha hb
      rw [hpar1, hrpos] at hb
      cases hb
      exact hbnd_c1 a ha
    · intro a b ha hb
      rw [hpar2, hrpos] at hb
      cases hb
      rw [sift_downF_frame cmp fuel _ c1 c2 hd12] at ha
      have hc2ne : c2 ≠ c1 := fun h => hne12 h.symm
      rw [listSwap_get_ne l (by omega) hc2ne] at ha
      exact hoc a ha
  · intro bnd hb r hr
    rw [hrpos] at hr
    cases hr
    exact hb c1 w hd1 hw

theorem sift_downF_main {cmp : β → β → Bool} (hasym : CmpAsym cmp)
    (hneg : CmpNegTrans cmp) :
    ∀ (fuel : Nat) (l : List β) (pos : Nat), l.length ≤ pos + fuel →
      STH cmp (child_a pos) l → STH cmp (child_b pos) l →
      STH cmp pos (sift_downF cmp fuel l pos) ∧
      (∀ bnd, (∀ j a, isDesc pos j = true → l[j]? = some a →
          cmp a bnd = false) →
        ∀ r, (sift_downF cmp fuel l pos)[pos]? = some r →
          cmp r bnd = false) := by
  intro fuel
  induction fuel with
  | zero =>
      intro l pos hfuel _ _
      constructor
      · exact STH_of_no_children (l := l) (by unfold child_a; omega)
      · intro bnd hb r hr
        exact hb pos r (desc_self pos) hr
  | succ fuel ih =>
      intro l pos hfuel hca hcb
      cases hp : l[pos]? with
      | none =>
          have hge := List.getElem?_eq_none_iff.mp hp
          simp only [sift_downF, hp]
          constructor
          · exact STH_of_no_children (l := l) (by unfold child_a; omega)
          · intro bnd hb r hr
            cases hr
      | some vp =>
        cases hc : l[child_a pos]? with
        | none =>
            have hge := List.getElem?_eq_none_iff.mp hc
            simp only [sift_downF, hp, hc]
            constructor
            · exact STH_of_no_children (l := l) hge
            · intro bnd hb r hr
              cases hr
              exact hb pos vp (desc_self pos) hp
        | some vc =>
          have hret : cmp vc vp = false → edgeOk cmp l (child_b pos) →
              STH cmp pos l ∧
              (∀ bnd, (∀ j a, isDesc pos j = true → l[j]? = some a →
                cmp a bnd = false) → ∀ r, some vp = some r →
                  cmp r bnd = false) := by
            intro hva hvb
            constructor
            · refine STH_assemble hca hcb ?_ hvb
              intro a b ha hb2
              rw [hc] at ha
              cases ha
              rw [parent_child_a, hp] at hb2
              cases hb2
              exact hva
            · intro bnd hb r hr
              cases hr
              exact hb pos vp (desc_self pos) hp
          cases hr : l[child_b pos]? with
          | some vr =>
              by_cases hcc : cmp vr vc = true
              · by_cases hsw : cmp vr vp = true
                · simp only [sift_downF, hp, hc, hr, hcc, hsw, if_true]
                  exact sift_swap_case hasym hneg fuel ih l pos
                    (child_b pos) (child_a pos) vp vr
                    (Or.inr ⟨rfl, rfl⟩) hp hr hsw
                    (fun ov hov => by
                      rw [hc] at hov; cases hov; exact hasym vr vc hcc)
                    hca hcb hfuel
                · rw [Bool.not_eq_true] at hsw
                  simp only [sift_downF, hp, hc, hr, hcc, hsw, if_true,
                    Bool.false_eq_true, if_false]
                  refine hret ?_ ?_
                  · exact hneg vp vr vc hsw (hasym vr vc hcc)
                  · intro a b ha hb
                    rw [hr] at ha
                    cases ha
                    rw [parent_child_b, hp] at hb
                    cases hb
                    exact hsw
              · rw [Bool.not_eq_true] at hcc
                by_cases hsw : cmp vc vp = true
                · simp only [sift_downF, hp, hc, hr, hcc, hsw, if_true,
                    Bool.false_eq_true, if_false]
                  exact sift_swap_case hasym hneg fuel ih l pos
                    (child_a pos) (child_b pos) vp vc
                    (Or.inl ⟨rfl, rfl⟩) hp hc hsw
                    (fun ov hov => by
                      rw [hr] at hov; cases hov; exact hcc)
                    hca hcb hfuel
                · rw [Bool.not_eq_true] at hsw
                  simp only [sift_downF, hp, hc, hr, hcc, hsw,
                    Bool.false_eq_true, if_false]
                  refine hret hsw ?_
                  intro a b ha hb
                  rw [hr] at ha
                  cases ha
                  rw [parent_child_b, hp] at hb
                  cases hb
                  exact hneg vp vc vr hsw hcc
          | none =>
              by_cases hsw : cmp vc vp = true
              · simp only [sift_downF, hp, hc, hr, hsw, if_true]
                exact sift_swap_case hasym hneg fuel ih l pos
                  (child_a pos) (child_b pos) vp vc
                  (Or.inl ⟨rfl, rfl⟩) hp hc hsw
                  (fun ov hov => by rw [hr] at hov; cases hov)
                  hca hcb hfuel
              · rw [Bool.not_eq_true] at hsw
                simp only [sift_downF, hp, hc, hr, hsw,
                  Bool.false_eq_true, if_false]
                refine hret hsw ?_
                intro a b ha hb
                rw [hr] at ha
                cases ha

end SiftMain


section HeapifyProof

variable {β : Type}

/-- Position `j` has no proper descendant inside `[tail_base, n)`: its
subtree content lies entirely in the already-heapified prefix. -/
def CleanTail (tb n j : Nat) : Prop :=
  ∀ t, t < n → isDesc j t = true → t ≠ j → t < tb

theorem clean_of_big {tb n j : Nat} (h : n ≤ 2 * j + 1) :
    CleanTail tb n j := by
  intro t ht hd hne
  have h1 := proper_desc_ge_child hd hne
  unfold child_a at h1
  omega

theorem STH_of_clean_zero {cmp : β → β → Bool} {n j : Nat} {l : List β}
    (hc : CleanTail 0 n j) (hlen : l.length = n) : STH cmp j l := by
  intro q hq hne a b ha _
  have h1 := lt_of_getElem?_some ha
  have h2 := hc q (by omega) hq hne
  omega

theorem STH_zero_of_short {cmp : β → β → Bool} {l : List β}
    (h : l.length ≤ 1) : STH cmp 0 l := by
  intro j _ hne a b ha _
  have h1 := lt_of_getElem?_some ha
  omega

/-- The invariant step: sifting down position `p`, when the invariant holds
from bound `B` upward (and on clean positions), extends it down to `p`,
provided every position strictly between `p` and `B` is clean. -/
theorem sift_step {cmp : β → β → Bool} (hasym : CmpAsym cmp)
    (hneg : CmpNegTrans cmp) {tb n : Nat} (l : List β) (p B : Nat)
    (hlen : l.length = n)
    (Hinv : ∀ j, (B ≤ j ∨ CleanTail tb n j) → STH cmp j l)
    (Hgap : ∀ j, p < j → j < B → CleanTail tb n j) :
    (∀ j, (p ≤ j ∨ CleanTail tb n j) → STH cmp j (sift_down cmp l p)) ∧
      (sift_down cmp l p).length = n := by
  have hchild : ∀ c, (c = child_a p ∨ c = child_b p) → STH cmp c l := by
    intro c hc
    have hpc : p < c := by
      rcases hc with rfl | rfl
      · unfold child_a; omega
      · unfold child_b; omega
    by_cases hcB : B ≤ c
    · exact Hinv c (Or.inl hcB)
    · exact Hinv c (Or.inr (Hgap c hpc (by omega)))
  have hmain := sift_downF_main hasym hneg l.length l p
    (Nat.le_add_left _ _) (hchild _ (Or.inl rfl)) (hchild _ (Or.inr rfl))
  have hSp : STH cmp p (sift_down cmp l p) := hmain.1
  have hlensd : (sift_down cmp l p).length = n := by
    rw [sift_down, sift_downF_length]
    exact hlen
  refine ⟨?_, hlensd⟩
  intro j hj
  by_cases hjp : j = p
  · subst hjp; exact hSp
  cases hdes : isDesc p j with
  | true => exact STH_sub hSp hdes
  | false =>
      cases hanc : isDesc j p with
      | true =>
          -- j is a strict ancestor of p: only possible on the clean side,
          -- and then the whole subtree at p is clean, so the sift is the
          -- identity.
          have hjlt : j < p := by
            have := desc_ge hanc
            omega
          have hclean : CleanTail tb n j := by
            rcases hj with hj | hj
            · omega
            · exact hj
          have hcleanp : CleanTail tb n p := by
            intro t ht hd hne
            refine hclean t ht (desc_trans hanc hd) ?_
            have h1 := desc_ge hd
            omega
          have hSpl : STH cmp p l := Hinv p (Or.inr hcleanp)
          rw [sift_down, sift_downF_id l.length l p hSpl]
          exact Hinv j (Or.inr hclean)
      | false =>
          -- subtrees of j and p are disjoint: frame transfer
          have hSjl : STH cmp j l := by
            rcases hj with hj | hj
            · by_cases hjB : B ≤ j
              · exact Hinv j (Or.inl hjB)
              · exact Hinv j (Or.inr (Hgap j (by omega) (by omega)))
            · exact Hinv j (Or.inr hj)
          refine STH_congr (fun q hq => ?_) hSjl
          refine sift_downF_frame cmp l.length l p q ?_
          cases hpq : isDesc p q with
          | false => rfl
          | true =>
              rcases nested_or_disjoint hq hpq with hn | hn
              · rw [hn] at hanc; cases hanc
              · rw [hn] at hdes; cases hdes

theorem heapifyGo_sth {cmp : β → β → Bool} (hasym : CmpAsym cmp)
    (hneg : CmpNegTrans cmp) {tb n : Nat} :
    ∀ (i : Nat) (l : List β), l.length = n →
      (∀ j, (i ≤ j ∨ CleanTail tb n j) → STH cmp j l) →
      (∀ j, STH cmp j (heapifyGo cmp i l)) ∧
        (heapifyGo cmp i l).length = n := by
  intro i
  induction i with
  | zero =>
      intro l hlen Hinv
      exact ⟨fun j => Hinv j (Or.inl (Nat.zero_le j)), hlen⟩
  | succ i ih =>
      intro l hlen Hinv
      obtain ⟨h1, h2⟩ := sift_step hasym hneg l i (i + 1) hlen Hinv
        (fun j hj1 hj2 => by omega)
      exact ih (sift_down cmp l i) h2 h1

/-- `heapify` establishes the heap property (indeed the subtree property at
every position), for any asymmetric, negatively transitive comparator. -/
theorem heapify_sth {cmp : β → β → Bool} (hasym : CmpAsym cmp)
    (hneg : CmpNegTrans cmp) (l : List β) :
    (∀ j, STH cmp j (heapify cmp l)) ∧ (heapify cmp l).length = l.length := by
  refine @heapifyGo_sth _ _ hasym hneg 0 l.length (l.length / 2) l rfl ?_
  intro j hj
  rcases hj with hj | hj
  · exact STH_of_no_children (by unfold child_a; omega)
  · exact STH_of_clean_zero hj rfl

end HeapifyProof


section TailProof

variable {β : Type}

/-- Iterated `parent_or_0`. -/
def pIter : Nat → Nat → Nat
  | 0, t => t
  | m + 1, t => pIter m (parent_or_0 t)

theorem pIter_zero (t : Nat) : pIter 0 t = t := rfl

theorem pIter_succ (m t : Nat) : pIter (m + 1) t = pIter m (parent_or_0 t) :=
  rfl

theorem pIter_succ_comm :
    ∀ (m t : Nat), pIter (m + 1) t = parent_or_0 (pIter m t) := by
  intro m
  induction m with
  | zero => intro t; rfl
  | succ m ih =>
      intro t
      rw [pIter_succ, ih (parent_or_0 t), pIter_succ]

theorem pIter_mono_val : ∀ (m : Nat) {a b : Nat}, a ≤ b →
    pIter m a ≤ pIter m b := by
  intro m
  induction m with
  | zero => intro a b h; exact h
  | succ m ih =>
      intro a b h
      rw [pIter_succ, pIter_succ]
      exact ih (parent_or_0_mono h)

theorem pIter_succ_le (m t : Nat) : pIter (m + 1) t ≤ pIter m t := by
  rw [pIter_succ_comm]
  exact parent_or_0_le _

theorem pIter_count_le : ∀ {m k : Nat}, m ≤ k → ∀ t, pIter k t ≤ pIter m t := by
  intro m k h t
  induction k with
  | zero =>
      have hm : m = 0 := by omega
      subst hm
      exact Nat.le_refl _
  | succ k ih =>
      by_cases hm : m = k + 1
      · subst hm; exact Nat.le_refl _
      · exact Nat.le_trans (pIter_succ_le k t) (ih (by omega))

theorem desc_pIter : ∀ {t j : Nat}, isDesc j t = true →
    ∃ m, pIter m t = j := by
  intro t
  induction t using Nat.strong_induction_on with
  | _ t ih =>
      intro j h
      by_cases ht : t = j
      · exact ⟨0, ht⟩
      · obtain ⟨hp, ht0⟩ := desc_step ht h
        obtain ⟨m, hm⟩ := ih _ (parent_or_0_lt ht0) hp
        exact ⟨m + 1, by rw [pIter_succ]; exact hm⟩

/-- The Elmasry–Katajainen coverage argument: between the row
`[pIter (k+1) left0, pIter (k+1) (n-1)]` just sifted and the previous
row start `pIter k left0`, every position is clean: none of its proper
descendants reaches back into the raw tail `[tb, n)`. -/
theorem gap_clean {tb n : Nat} (htbn : tb < n) {u0 : Nat}
    (hu0 : u0 = max tb (parent_or_0 (n - 1))) (k j : Nat)
    (h1 : pIter (k + 1) (n - 1) < j) (h2 : j < pIter k u0) :
    CleanTail tb n j := by
  intro t ht hd hne
  by_contra hge
  push_neg at hge
  obtain ⟨m, hm⟩ := desc_pIter hd
  have htn : t ≤ n - 1 := by omega
  have hjle : j ≤ pIter m (n - 1) := by
    rw [← hm]
    exact pIter_mono_val m htn
  have hmk : m ≤ k := by
    by_contra hmk
    push_neg at hmk
    have := pIter_count_le (show k + 1 ≤ m by omega) (n - 1)
    omega
  by_cases hcase : parent_or_0 (n - 1) ≤ tb
  · have hu : u0 = tb := by rw [hu0]; omega
    subst hu
    have ha : pIter m u0 ≤ pIter m t := pIter_mono_val m hge
    have hb := pIter_count_le hmk u0
    omega
  · have hu : u0 = parent_or_0 (n - 1) := by rw [hu0]; omega
    have : pIter k u0 = pIter (k + 1) (n - 1) := by rw [hu, pIter_succ]
    omega

theorem revRange_self (left : Nat) : revRange left left = [left] := by
  unfold revRange
  have h : left + 1 - left = 1 := by omega
  rw [h]
  rfl

theorem range'_concat_own :
    ∀ (n s : Nat), List.range' s (n + 1) = List.range' s n ++ [s + n] := by
  intro n
  induction n with
  | zero => intro s; simp [List.range']
  | succ n ih =>
      intro s
      have h1 : List.range' s (n + 2) = s :: List.range' (s + 1) (n + 1) := rfl
      have h2 : List.range' s (n + 1) = s :: List.range' (s + 1) n := rfl
      rw [h1, ih (s + 1), h2]
      simp [Nat.add_assoc, Nat.add_comm 1 n]

theorem revRange_eq_cons {left right : Nat} (h : left ≤ right) :
    revRange left (right + 1) = (right + 1) :: revRange left right := by
  unfold revRange
  have h1 : right + 1 + 1 - left = (right + 1 - left) + 1 := by omega
  rw [h1, range'_concat_own]
  have h2 : left + (right + 1 - left) = right + 1 := by omega
  rw [h2, List.reverse_append]
  rfl

theorem siftList_nil (cmp : β → β → Bool) (l : List β) :
    siftList cmp [] l = l := rfl

theorem siftList_cons (cmp : β → β → Bool) (p : Nat) (ps : List Nat)
    (l : List β) : siftList cmp (p :: ps) l =
      siftList cmp ps (sift_down cmp l p) := rfl

/-- One pass of `heapify_tail`: sifting positions `left + count` down to
`left` in descending order pushes the invariant bound down from `B` to
`left`, provided the positions between `left + count` and `B` are clean. -/
theorem passBody {cmp : β → β → Bool} (hasym : CmpAsym cmp)
    (hneg : CmpNegTrans cmp) {tb n : Nat} :
    ∀ (count left : Nat) (l : List β) (B : Nat), l.length = n →
      (∀ j, (B ≤ j ∨ CleanTail tb n j) → STH cmp j l) →
      (∀ c, left + count < c → c < B → CleanTail tb n c) →
      (∀ j, (left ≤ j ∨ CleanTail tb n j) →
          STH cmp j (siftList cmp (revRange left (left + count)) l)) ∧
        (siftList cmp (revRange left (left + count)) l).length = n := by
  intro count
  induction count with
  | zero =>
      intro left l B hlen Hinv Hstart
      rw [Nat.add_zero, revRange_self, siftList_cons, siftList_nil]
      exact sift_step hasym hneg l left B hlen Hinv Hstart
  | succ count ih =>
      intro left l B hlen Hinv Hstart
      have hrw : left + (count + 1) = (left + count) + 1 := rfl
      rw [hrw, revRange_eq_cons (by omega), siftList_cons]
      obtain ⟨Inv1, hlen1⟩ := sift_step hasym hneg l (left + count + 1) B hlen
        Hinv (fun c hc1 hc2 => Hstart c (by omega) hc2)
      exact ih left (sift_down cmp l (left + count + 1)) (left + count + 1)
        hlen1 Inv1 (fun c hc1 hc2 => by omega)

/-- The `while right != 0` loop of `heapify_tail`: after `k` completed
passes, `left` and `right` sit at the `k`-fold parents of their start
values, and the heap invariant holds from `left` upward; the loop then
drives the invariant all the way to the root. -/
theorem heapifyTailGo_sth {cmp : β → β → Bool} (hasym : CmpAsym cmp)
    (hneg : CmpNegTrans cmp) {tb n : Nat} (htbn : tb < n) (hn2 : 2 ≤ n)
    (u0 : Nat) (hu0 : u0 = max tb (parent_or_0 (n - 1))) :
    ∀ (fuel k : Nat) (l : List β) (B : Nat), pIter k (n - 1) < fuel →
      l.length = n →
      (∀ j, (B ≤ j ∨ CleanTail tb n j) → STH cmp j l) →
      ((k = 0 ∧ B = n) ∨ B = pIter k u0) →
      (∀ j, STH cmp j
          (heapifyTailGo cmp fuel (pIter k u0) (pIter k (n - 1)) l)) ∧
        (heapifyTailGo cmp fuel (pIter k u0) (pIter k (n - 1)) l).length
          = n := by
  have hu0n : u0 ≤ n - 1 := by
    rw [hu0]
    exact Nat.max_le.mpr ⟨by omega, parent_or_0_le _⟩
  intro fuel
  induction fuel with
  | zero => intro k l B hfe; omega
  | succ fuel ih =>
      intro k l B hfe hlen Hinv HB
      simp only [heapifyTailGo]
      by_cases hr0 : pIter k (n - 1) = 0
      · rw [if_pos hr0]
        rcases HB with ⟨hk0, _⟩ | hB
        · subst hk0
          rw [pIter_zero] at hr0
          omega
        · have hle : pIter k u0 ≤ pIter k (n - 1) := pIter_mono_val k hu0n
          refine ⟨fun j => Hinv j (Or.inl (by omega)), hlen⟩
      · rw [if_neg hr0]
        rw [← pIter_succ_comm k u0, ← pIter_succ_comm k (n - 1)]
        have hlr : pIter (k + 1) u0 ≤ pIter (k + 1) (n - 1) :=
          pIter_mono_val (k + 1) hu0n
        have hstart : ∀ c, pIter (k + 1) (n - 1) < c → c < B →
            CleanTail tb n c := by
          intro c hc1 hc2
          rcases HB with ⟨hk0, hBn⟩ | hB
          · subst hk0
            refine clean_of_big ?_
            rw [pIter_succ, pIter_zero] at hc1
            have hn1 : n - 1 ≠ 0 := by omega
            unfold parent_or_0 at hc1
            rw [if_neg hn1] at hc1
            omega
          · exact gap_clean htbn hu0 k c hc1 (by omega)
        have hconv : pIter (k + 1) u0 +
            (pIter (k + 1) (n - 1) - pIter (k + 1) u0)
            = pIter (k + 1) (n - 1) := by omega
        obtain ⟨Inv2, hlen2⟩ := passBody hasym hneg
          (pIter (k + 1) (n - 1) - pIter (k + 1) u0) (pIter (k + 1) u0) l B
          hlen Hinv (by rw [hconv]; exact hstart)
        rw [hconv] at Inv2 hlen2
        refine ih (k + 1) _ (pIter (k + 1) u0) ?_ hlen2 Inv2 (Or.inr rfl)
        have hlt := parent_or_0_lt hr0
        rw [pIter_succ_comm]
        omega

/-- `heapify_tail` establishes the full heap property whenever the prefix
`[0, tail_base)` already satisfies it, i.e. whenever every position whose
proper descendants all lie below `tail_base` heads a valid sub-heap. -/
theorem heapify_tail_sth {cmp : β → β → Bool} (hasym : CmpAsym cmp)
    (hneg : CmpNegTrans cmp) (l : List β) (tb : Nat)
    (Hpre : ∀ j, CleanTail tb l.length j → STH cmp j l) :
    (∀ j, STH cmp j (heapify_tail cmp l tb)) ∧
      (heapify_tail cmp l tb).length = l.length := by
  unfold heapify_tail
  by_cases h1 : tb ≥ l.length
  · rw [if_pos h1]
    refine ⟨fun j => Hpre j ?_, rfl⟩
    intro t ht _ _
    omega
  rw [if_neg h1]
  by_cases h2 : l.length < 2
  · rw [if_pos h2]
    refine ⟨fun j => STH_of_no_children ?_, rfl⟩
    unfold child_a
    omega
  rw [if_neg h2]
  have hmain := @heapifyTailGo_sth _ _ hasym hneg tb l.length
    (by omega) (by omega) (max tb (parent_or_0 (l.length - 1))) rfl
    l.length 0 l l.length (by rw [pIter_zero]; omega) rfl
    (fun j hj => by
      rcases hj with hj | hj
      · exact STH_of_no_children (by unfold child_a; omega)
      · exact Hpre j hj)
    (Or.inl ⟨rfl, rfl⟩)
  rw [pIter_zero, pIter_zero] at hmain
  exact hmain

end TailProof


section HitPerm

variable {α β : Type}

theorem sift_down_perm (cmp : β → β → Bool) (l : List β) (pos : Nat) :
    List.Perm (sift_down cmp l pos) l :=
  sift_downF_perm cmp l.length l pos

theorem heapifyGo_perm (cmp : β → β → Bool) :
    ∀ (i : Nat) (l : List β), List.Perm (heapifyGo cmp i l) l := by
  intro i
  induction i with
  | zero => intro l; exact List.Perm.refl l
  | succ i ih =>
      intro l
      exact (ih _).trans (sift_down_perm cmp l i)

theorem heapify_perm (cmp : β → β → Bool) (l : List β) :
    List.Perm (heapify cmp l) l :=
  heapifyGo_perm cmp (l.length / 2) l

theorem siftList_perm (cmp : β → β → Bool) :
    ∀ (ps : List Nat) (l : List β), List.Perm (siftList cmp ps l) l := by
  intro ps
  induction ps with
  | nil => intro l; exact List.Perm.refl l
  | cons p ps ih =>
      intro l
      rw [siftList_cons]
      exact (ih _).trans (sift_down_perm cmp l p)

theorem heapifyTailGo_perm (cmp : β → β → Bool) :
    ∀ (fuel left right : Nat) (l : List β),
      List.Perm (heapifyTailGo cmp fuel left right l) l := by
  intro fuel
  induction fuel with
  | zero => intro left right l; exact List.Perm.refl l
  | succ fuel ih =>
      intro left right l
      simp only [heapifyTailGo]
      split
      · exact List.Perm.refl l
      · exact (ih _ _ _).trans (siftList_perm cmp _ l)

theorem heapify_tail_perm (cmp : β → β → Bool) (l : List β) (tb : Nat) :
    List.Perm (heapify_tail cmp l tb) l := by
  unfold heapify_tail
  split
  · exact List.Perm.refl l
  split
  · exact List.Perm.refl l
  · exact heapifyTailGo_perm cmp l.length _ _ l

theorem hitContents_cons (s : α × List α) (t : List (α × List α)) :
    hitContents (s :: t) = (s.1 :: s.2) ++ hitContents t := rfl

theorem hitContents_append (s t : List (α × List α)) :
    hitContents (s ++ t) = hitContents s ++ hitContents t := by
  simp [hitContents]

theorem hitContents_perm {s t : List (α × List α)} (h : List.Perm s t) :
    List.Perm (hitContents s) (hitContents t) := by
  unfold hitContents
  exact (h.map (fun p => p.1 :: p.2)).flatten

theorem contents_filterMap (streams : List (List α)) :
    hitContents (streams.filterMap htNew) = streams.flatten := by
  induction streams with
  | nil => rfl
  | cons s ss ih =>
      cases s with
      | nil => simpa [htNew] using ih
      | cons x xs => simp [htNew, hitContents_cons, ih]

theorem getLast?_decomp : ∀ {l : List α} {a : α}, l.getLast? = some a →
    l = l.dropLast ++ [a] := by
  intro l
  induction l with
  | nil => intro a h; simp at h
  | cons x xs ih =>
      intro a h
      cases xs with
      | nil =>
          rw [List.getLast?_singleton] at h
          cases h
          rfl
      | cons y ys =>
          rw [List.getLast?_cons_cons] at h
          conv_lhs => rw [ih h]
          rfl

theorem getLast?_some_of_ne_nil :
    ∀ (ys : List α) (y : α), ∃ a, (y :: ys).getLast? = some a := by
  intro ys
  induction ys with
  | nil => intro y; exact ⟨y, List.getLast?_singleton y⟩
  | cons z zs ih =>
      intro y
      rw [List.getLast?_cons_cons]
      exact ih z

theorem dropLast_getElem?_own :
    ∀ (l : List α) (q : Nat) (a : α), (l.dropLast)[q]? = some a →
      l[q]? = some a := by
  intro l
  induction l with
  | nil => intro q a h; simp at h
  | cons x xs ih =>
      cases xs with
      | nil => intro q a h; simp at h
      | cons y ys =>
          intro q a h
          have hd : (x :: y :: ys).dropLast = x :: (y :: ys).dropLast := rfl
          rw [hd] at h
          cases q with
          | zero =>
              simp only [List.getElem?_cons_zero] at h ⊢
              exact h
          | succ q =>
              simp only [List.getElem?_cons_succ] at h ⊢
              exact ih q a h

theorem swapRemoveFront_perm (ht : β) (rest : List β) :
    List.Perm (swapRemoveFront (ht :: rest)) rest := by
  cases rest with
  | nil => simp [swapRemoveFront]
  | cons y ys =>
      obtain ⟨last, hl⟩ := getLast?_some_of_ne_nil ys y
      have hsw : swapRemoveFront (ht :: y :: ys) = last :: (y :: ys).dropLast := by
        simp only [swapRemoveFront]
        rw [hl]
      rw [hsw]
      have hdec := getLast?_decomp hl
      conv_rhs => rw [hdec]
      exact (List.perm_append_singleton last _).symm

theorem hitNext_none_iff (lt : α → α → Bool) (state : List (α × List α)) :
    hitNext lt state = none ↔ state = [] := by
  cases state with
  | nil => simp [hitNext]
  | cons ht rest =>
      obtain ⟨h, tl⟩ := ht
      cases tl with
      | nil => simp [hitNext]
      | cons t ts => simp [hitNext]

theorem hitNext_some_perm {lt : α → α → Bool} {state : List (α × List α)}
    {x : α} {s' : List (α × List α)} (h : hitNext lt state = some (x, s')) :
    List.Perm (x :: hitContents s') (hitContents state) := by
  cases state with
  | nil => simp [hitNext] at h
  | cons ht rest =>
      obtain ⟨hd, tl⟩ := ht
      cases tl with
      | cons t ts =>
          simp only [hitNext, Option.some.injEq, Prod.mk.injEq] at h
          obtain ⟨rfl, rfl⟩ := h
          have hp := hitContents_perm
            (sift_down_perm (headCmp lt) ((t, ts) :: rest) 0)
          exact List.Perm.cons hd hp
      | nil =>
          simp only [hitNext, Option.some.injEq, Prod.mk.injEq] at h
          obtain ⟨rfl, rfl⟩ := h
          have hp1 := hitContents_perm
            (sift_down_perm (headCmp lt) (swapRemoveFront ((hd, []) :: rest)) 0)
          have hp2 := hitContents_perm (swapRemoveFront_perm (hd, ([] : List α)) rest)
          exact List.Perm.cons hd (hp1.trans hp2)

theorem hitNext_size {lt : α → α → Bool} {state : List (α × List α)}
    {x : α} {s' : List (α × List α)} (h : hitNext lt state = some (x, s')) :
    hitSize s' + 1 = hitSize state := by
  have hp := (hitNext_some_perm h).length_eq
  simp only [List.length_cons] at hp
  exact hp

theorem hitDrainF_perm (lt : α → α → Bool) :
    ∀ (fuel : Nat) (state : List (α × List α)), hitSize state ≤ fuel →
      List.Perm (hitDrainF lt fuel state) (hitContents state) := by
  intro fuel
  induction fuel with
  | zero =>
      intro state hsz
      have h0 : hitContents state = [] := by
        have : (hitContents state).length = 0 := by
          unfold hitSize at hsz
          omega
        exact List.eq_nil_of_length_eq_zero this
      rw [h0]
      exact List.Perm.refl _
  | succ fuel ih =>
      intro state hsz
      cases hn : hitNext lt state with
      | none =>
          have hst := (hitNext_none_iff lt state).mp hn
          subst hst
          exact List.Perm.refl []
      | some p =>
          obtain ⟨x, s'⟩ := p
          simp only [hitDrainF, hn]
          have hsz' : hitSize s' ≤ fuel := by
            have := hitNext_size hn
            omega
          exact (List.Perm.cons x (ih s' hsz')).trans (hitNext_some_perm hn)

theorem hitDrain_perm (lt : α → α → Bool) (state : List (α × List α)) :
    List.Perm (hitDrain lt state) (hitContents state) :=
  hitDrainF_perm lt (hitSize state) state (Nat.le_refl _)

theorem hitDrainF_subset {lt : α → α → Bool} :
    ∀ {fuel : Nat} {state : List (α × List α)} {y : α},
      y ∈ hitDrainF lt fuel state → y ∈ hitContents state := by
  intro fuel
  induction fuel with
  | zero => intro state y h; simp [hitDrainF] at h
  | succ fuel ih =>
      intro state y h
      cases hn : hitNext lt state with
      | none => rw [hitDrainF, hn] at h; simp at h
      | some p =>
          obtain ⟨x, s'⟩ := p
          rw [hitDrainF, hn] at h
          have hperm := hitNext_some_perm hn
          rcases List.mem_cons.mp h with rfl | hy
          · exact hperm.mem_iff.mp (List.mem_cons_self _ _)
          · exact hperm.mem_iff.mp (List.mem_cons_of_mem _ (ih hy))

end HitPerm


section HitSort

variable {α β : Type}

/-- Every record of the heap state holds a stream `head :: tail` that is
sorted ascending: no later item compares strictly below an earlier one. -/
def SlotsSorted (lt : α → α → Bool) (state : List (α × List α)) : Prop :=
  ∀ p ∈ state, List.Pairwise (fun a b => lt b a = false) (p.1 :: p.2)

theorem headCmp_asym {lt : α → α → Bool} (h : CmpAsym lt) :
    CmpAsym (headCmp lt) :=
  fun a b hab => h a.1 b.1 hab

theorem headCmp_negtrans {lt : α → α → Bool} (h : CmpNegTrans lt) :
    CmpNegTrans (headCmp lt) :=
  fun a b c hab hbc => h a.1 b.1 c.1 hab hbc

theorem sift_root_heap {cmp : β → β → Bool} (hasym : CmpAsym cmp)
    (hneg : CmpNegTrans cmp) (l : List β)
    (H1 : ∀ j, 1 ≤ j → STH cmp j l) :
    ∀ j, STH cmp j (sift_down cmp l 0) := by
  obtain ⟨h1, _⟩ := @sift_step _ _ hasym hneg 0 l.length l 0 1 rfl
    (fun j hj => by
      rcases hj with hj | hj
      · exact H1 j hj
      · exact STH_of_clean_zero hj rfl)
    (fun j hj1 hj2 => by omega)
  exact fun j => h1 j (Or.inl (Nat.zero_le j))

theorem STH_set_zero {cmp : β → β → Bool} {l : List β} {v : β} {j : Nat}
    (hj : 1 ≤ j) (h : STH cmp j l) : STH cmp j (l.set 0 v) := by
  refine STH_congr (fun q hq => ?_) h
  have hq1 : 1 ≤ q := by
    have := desc_ge hq
    omega
  exact List.getElem?_set_ne (by omega)

theorem STH_of_getElem?_sub {cmp : β → β → Bool} {l l' : List β} {j : Nat}
    (hsub : ∀ (q : Nat) (a : β), l'[q]? = some a → l[q]? = some a)
    (h : STH cmp j l) : STH cmp j l' :=
  fun q hq hne a b ha hb => h q hq hne a b (hsub q a ha) (hsub _ b hb)

/-- Every item still in the heap state compares not-below the head of the
root record. -/
theorem state_min {lt : α → α → Bool} (hasym : CmpAsym lt)
    (hneg : CmpNegTrans lt) {state : List (α × List α)}
    (hheap : ∀ j, STH (headCmp lt) j state) (hslots : SlotsSorted lt state)
    {r0 : α × List α} (hd : state[0]? = some r0) :
    ∀ y ∈ hitContents state, lt y r0.1 = false := by
  intro y hy
  unfold hitContents at hy
  obtain ⟨l0, hl0, hyl⟩ := List.mem_flatten.mp hy
  obtain ⟨slot, hslot, rfl⟩ := List.mem_map.mp hl0
  obtain ⟨j, hj⟩ := List.mem_iff_getElem?.mp hslot
  have hroot : lt slot.1 r0.1 = false :=
    root_min (headCmp_asym hasym) (headCmp_negtrans hneg) (hheap 0) j
      (desc_zero j) slot r0 hj hd
  rcases List.mem_cons.mp hyl with rfl | hy2
  · exact hroot
  · have hs := hslots slot hslot
    have hys : lt y slot.1 = false :=
      (List.pairwise_cons.mp hs).1 y hy2
    exact hneg r0.1 slot.1 y hroot hys

theorem hitNext_head {lt : α → α → Bool} {state : List (α × List α)} {x : α}
    {s' : List (α × List α)} (h : hitNext lt state = some (x, s')) :
    ∃ r0, state[0]? = some r0 ∧ r0.1 = x := by
  cases state with
  | nil => simp [hitNext] at h
  | cons ht rest =>
      obtain ⟨hd, tl⟩ := ht
      cases tl with
      | cons t ts =>
          simp only [hitNext, Option.some.injEq, Prod.mk.injEq] at h
          exact ⟨(hd, t :: ts), by simp, h.1⟩
      | nil =>
          simp only [hitNext, Option.some.injEq, Prod.mk.injEq] at h
          exact ⟨(hd, []), by simp, h.1⟩

theorem hitNext_heap {lt : α → α → Bool} (hasym : CmpAsym lt)
    (hneg : CmpNegTrans lt) {state : List (α × List α)} {x : α}
    {s' : List (α × List α)}
    (hheap : ∀ j, STH (headCmp lt) j state)
    (h : hitNext lt state = some (x, s')) :
    ∀ j, STH (headCmp lt) j s' := by
  cases state with
  | nil => simp [hitNext] at h
  | cons ht rest =>
      obtain ⟨hd, tl⟩ := ht
      cases tl with
      | cons t ts =>
          simp only [hitNext, Option.some.injEq, Prod.mk.injEq] at h
          obtain ⟨rfl, rfl⟩ := h
          refine sift_root_heap (headCmp_asym hasym)
            (headCmp_negtrans hneg) _ (fun j hj => ?_)
          have hset : (t, ts) :: rest = ((hd, t :: ts) :: rest).set 0 (t, ts) :=
            rfl
          rw [hset]
          exact STH_set_zero hj (hheap j)
      | nil =>
          simp only [hitNext, Option.some.injEq, Prod.mk.injEq] at h
          obtain ⟨rfl, rfl⟩ := h
          refine sift_root_heap (headCmp_asym hasym)
            (headCmp_negtrans hneg) _ (fun j hj => ?_)
          cases rest with
          | nil =>
              refine STH_of_no_children ?_
              simp [swapRemoveFront, child_a]
          | cons y ys =>
              obtain ⟨last, hl⟩ := getLast?_some_of_ne_nil ys y
              have hsw : swapRemoveFront ((hd, ([] : List α)) :: y :: ys)
                  = last :: (y :: ys).dropLast := by
                simp only [swapRemoveFront]
                rw [hl]
              rw [hsw]
              have hset1 : last :: y :: ys
                  = ((hd, ([] : List α)) :: y :: ys).set 0 last := rfl
              have hs1 : STH (headCmp lt) j (last :: y :: ys) := by
                rw [hset1]
                exact STH_set_zero hj (hheap j)
              refine STH_of_getElem?_sub (fun q a ha => ?_) hs1
              exact dropLast_getElem?_own (last :: y :: ys) q a ha

theorem hitNext_slots {lt : α → α → Bool} {state : List (α × List α)} {x : α}
    {s' : List (α × List α)} (hslots : SlotsSorted lt state)
    (h : hitNext lt state = some (x, s')) : SlotsSorted lt s' := by
  cases state with
  | nil => simp [hitNext] at h
  | cons ht rest =>
      obtain ⟨hd, tl⟩ := ht
      cases tl with
      | cons t ts =>
          simp only [hitNext, Option.some.injEq, Prod.mk.injEq] at h
          obtain ⟨rfl, rfl⟩ := h
          intro p hp
          have hp2 : p ∈ (t, ts) :: rest :=
            (sift_down_perm (headCmp lt) _ 0).mem_iff.mp hp
          rcases List.mem_cons.mp hp2 with rfl | hp3
          · have := hslots (hd, t :: ts) (List.mem_cons_self _ _)
            exact (List.pairwise_cons.mp this).2
          · exact hslots p (List.mem_cons_of_mem _ hp3)
      | nil =>
          simp only [hitNext, Option.some.injEq, Prod.mk.injEq] at h
          obtain ⟨rfl, rfl⟩ := h
          intro p hp
          have hp2 : p ∈ swapRemoveFront ((hd, ([] : List α)) :: rest) :=
            (sift_down_perm (headCmp lt) _ 0).mem_iff.mp hp
          have hp3 : p ∈ rest :=
            (swapRemoveFront_perm (hd, ([] : List α)) rest).mem_iff.mp hp2
          exact hslots p (List.mem_cons_of_mem _ hp3)

/-- `HitMerge::next` preserves the heap invariant and the slot sortedness,
and everything left in the state compares not-below the emitted item. -/
theorem hitNext_inv {lt : α → α → Bool} (hasym : CmpAsym lt)
    (hneg : CmpNegTrans lt) {state : List (α × List α)} {x : α}
    {s' : List (α × List α)}
    (hheap : ∀ j, STH (headCmp lt) j state) (hslots : SlotsSorted lt state)
    (h : hitNext lt state = some (x, s')) :
    (∀ j, STH (headCmp lt) j s') ∧ SlotsSorted lt s' ∧
      (∀ y ∈ hitContents s', lt y x = false) := by
  refine ⟨hitNext_heap hasym hneg hheap h, hitNext_slots hslots h, ?_⟩
  intro y hy
  obtain ⟨r0, hr0, hrx⟩ := hitNext_head h
  have hmem : y ∈ hitContents state :=
    (hitNext_some_perm h).mem_iff.mp (List.mem_cons_of_mem _ hy)
  rw [← hrx]
  exact state_min hasym hneg hheap hslots hr0 y hmem

/-- Draining from a state satisfying the heap invariant with sorted slots
produces a sorted stream. -/
theorem hitDrainF_sorted {lt : α → α → Bool} (hasym : CmpAsym lt)
    (hneg : CmpNegTrans lt) :
    ∀ (fuel : Nat) (state : List (α × List α)),
      (∀ j, STH (headCmp lt) j state) → SlotsSorted lt state →
      List.Pairwise (fun a b => lt b a = false) (hitDrainF lt fuel state) := by
  intro fuel
  induction fuel with
  | zero => intro state _ _; exact List.Pairwise.nil
  | succ fuel ih =>
      intro state hheap hslots
      cases hn : hitNext lt state with
      | none =>
          have hst := (hitNext_none_iff lt state).mp hn
          subst hst
          exact List.Pairwise.nil
      | some p =>
          obtain ⟨x, s'⟩ := p
          simp only [hitDrainF, hn]
          obtain ⟨hheap', hslots', hmin⟩ := hitNext_inv hasym hneg hheap hslots hn
          refine List.pairwise_cons.mpr ⟨?_, ih s' hheap' hslots'⟩
          intro b hb
          exact hmin b (hitDrainF_subset hb)

/-- The initial heap state of `hit_merge_by_predicate` satisfies the
invariants whenever the input streams are sorted. -/
theorem hit_merge_inv {lt : α → α → Bool} (hasym : CmpAsym lt)
    (hneg : CmpNegTrans lt) (streams : List (List α))
    (hsorted : ∀ s ∈ streams, List.Pairwise (fun a b => lt b a = false) s) :
    (∀ j, STH (headCmp lt) j (hit_merge_by_predicate lt streams)) ∧
      SlotsSorted lt (hit_merge_by_predicate lt streams) := by
  constructor
  · exact (heapify_sth (headCmp_asym hasym) (headCmp_negtrans hneg) _).1
  · intro p hp
    have hp2 : p ∈ streams.filterMap htNew :=
      (heapify_perm (headCmp lt) _).mem_iff.mp hp
    obtain ⟨s, hs, hnew⟩ := List.mem_filterMap.mp hp2
    cases s with
    | nil => simp [htNew] at hnew
    | cons a l =>
        simp only [htNew, Option.some.injEq] at hnew
        subst hnew
        exact hsorted (a :: l) hs

end HitSort


section Claims34

variable {α : Type}

theorem slots_of_streams {lt : α → α → Bool} {streams : List (List α)}
    (hsorted : ∀ s ∈ streams, List.Pairwise (fun a b => lt b a = false) s) :
    ∀ p ∈ streams.filterMap htNew,
      List.Pairwise (fun a b => lt b a = false) (p.1 :: p.2) := by
  intro p hp
  obtain ⟨s, hs, hnew⟩ := List.mem_filterMap.mp hp
  cases s with
  | nil => simp [htNew] at hnew
  | cons a l =>
      simp only [htNew, Option.some.injEq] at hnew
      subst hnew
      exact hsorted (a :: l) hs

theorem STH_append_heap {β : Type} {cmp : β → β → Bool}
    {merged rest : List β} {j : Nat} (hheap : ∀ i, STH cmp i merged)
    (hclean : CleanTail merged.length (merged ++ rest).length j) :
    STH cmp j (merged ++ rest) := by
  intro q hq hne a b ha hb
  have hqlen := lt_of_getElem?_some ha
  have hqtb : q < merged.length := hclean q hqlen hq hne
  have hptb : parent_or_0 q < merged.length :=
    Nat.lt_of_le_of_lt (parent_or_0_le q) hqtb
  rw [List.getElem?_append_left hqtb] at ha
  rw [List.getElem?_append_left hptb] at hb
  exact hheap j q hq hne a b ha hb

theorem hit_bulk_inv {lt : α → α → Bool} (hasym : CmpAsym lt)
    (hneg : CmpNegTrans lt) (b1 b2 : List (List α))
    (hs1 : ∀ s ∈ b1, List.Pairwise (fun a b => lt b a = false) s)
    (hs2 : ∀ s ∈ b2, List.Pairwise (fun a b => lt b a = false) s) :
    (∀ j, STH (headCmp lt) j
        (hit_bulk_insert lt (hit_merge_by_predicate lt b1) b2)) ∧
      SlotsSorted lt (hit_bulk_insert lt (hit_merge_by_predicate lt b1) b2) := by
  have hmheap : ∀ i, STH (headCmp lt) i
      (heapify (headCmp lt) (b1.filterMap htNew)) :=
    (heapify_sth (headCmp_asym hasym) (headCmp_negtrans hneg) _).1
  constructor
  · unfold hit_bulk_insert hit_merge_by_predicate
    refine (heapify_tail_sth (headCmp_asym hasym) (headCmp_negtrans hneg)
      _ _ (fun j hclean => ?_)).1
    exact STH_append_heap hmheap hclean
  · intro p hp
    unfold hit_bulk_insert at hp
    have hp2 := (heapify_tail_perm (headCmp lt) _ _).mem_iff.mp hp
    rcases List.mem_append.mp hp2 with hp3 | hp3
    · unfold hit_merge_by_predicate at hp3
      have hp4 := (heapify_perm (headCmp lt) _).mem_iff.mp hp3
      exact slots_of_streams hs1 p hp4
    · exact slots_of_streams hs2 p hp3

theorem hitMergeDrain_perm (lt : α → α → Bool) (streams : List (List α)) :
    List.Perm (hitMergeDrain lt streams) streams.flatten := by
  unfold hitMergeDrain hit_merge_by_predicate
  refine (hitDrain_perm lt _).trans ?_
  refine (hitContents_perm (heapify_perm _ _)).trans ?_
  rw [contents_filterMap]

theorem hitMergeDrain_sorted {lt : α → α → Bool} (hasym : CmpAsym lt)
    (hneg : CmpNegTrans lt) (streams : List (List α))
    (hsorted : ∀ s ∈ streams, List.Pairwise (fun a b => lt b a = false) s) :
    List.Pairwise (fun a b => lt b a = false) (hitMergeDrain lt streams) := by
  obtain ⟨hheap, hslots⟩ := hit_merge_inv hasym hneg streams hsorted
  unfold hitMergeDrain hitDrain
  exact hitDrainF_sorted hasym hneg _ _ hheap hslots

theorem bulk_drain_perm (lt : α → α → Bool) (b1 b2 : List (List α)) :
    List.Perm
      (hitDrain lt (hit_bulk_insert lt (hit_merge_by_predicate lt b1) b2))
      (b1 ++ b2).flatten := by
  refine (hitDrain_perm lt _).trans ?_
  unfold hit_bulk_insert hit_merge_by_predicate
  refine (hitContents_perm (heapify_tail_perm _ _ _)).trans ?_
  rw [hitContents_append, contents_filterMap, List.flatten_append]
  have h1 : List.Perm
      (hitContents (heapify (headCmp lt) (b1.filterMap htNew))) b1.flatten := by
    refine (hitContents_perm (heapify_perm _ _)).trans ?_
    rw [contents_filterMap]
  exact List.Perm.append_right _ h1

theorem bulk_drain_sorted {lt : α → α → Bool} (hasym : CmpAsym lt)
    (hneg : CmpNegTrans lt) (b1 b2 : List (List α))
    (hs1 : ∀ s ∈ b1, List.Pairwise (fun a b => lt b a = false) s)
    (hs2 : ∀ s ∈ b2, List.Pairwise (fun a b => lt b a = false) s) :
    List.Pairwise (fun a b => lt b a = false)
      (hitDrain lt (hit_bulk_insert lt (hit_merge_by_predicate lt b1) b2)) := by
  obtain ⟨hheap, hslots⟩ := hit_bulk_inv hasym hneg b1 b2 hs1 hs2
  unfold hitDrain
  exact hitDrainF_sorted hasym hneg _ _ hheap hslots

/-- C3: draining `hit_merge_by_predicate` emits exactly the multiset union
of the input streams (no item lost or duplicated), unconditionally for
every comparator; and whenever the comparator is asymmetric and negatively
transitive (as every strict weak order is) and each input stream is sorted
ascending (no later item strictly below an earlier one), the drained
output is sorted ascending the same way.  The sortedness part does NOT
hold for arbitrary comparators, so the universally quantified spec
sentence needs these comparator hypotheses. -/
theorem c3_hit_merge_drain (lt : α → α → Bool) (streams : List (List α)) :
    List.Perm (hitMergeDrain lt streams) streams.flatten ∧
    (CmpAsym lt → CmpNegTrans lt →
      (∀ s ∈ streams, List.Pairwise (fun a b => lt b a = false) s) →
      List.Pairwise (fun a b => lt b a = false) (hitMergeDrain lt streams)) :=
  ⟨hitMergeDrain_perm lt streams,
    fun hasym hneg hsorted => hitMergeDrain_sorted hasym hneg streams hsorted⟩

/-- Witness for C3 at a concrete instance: the strict order on `Bool`
and streams `[[false, true], [false]]`. -/
theorem c3_hit_merge_drain_witness :
    List.Perm (hitMergeDrain (fun a b : Bool => !a && b) [[false, true], [false]])
      ([[false, true], [false]] : List (List Bool)).flatten ∧
    List.Pairwise (fun a b : Bool => (!b && a) = false)
      (hitMergeDrain (fun a b : Bool => !a && b) [[false, true], [false]]) := by
  have h := c3_hit_merge_drain (fun a b : Bool => !a && b) [[false, true], [false]]
  exact ⟨h.1, h.2 (by unfold CmpAsym; decide) (by unfold CmpNegTrans; decide) (by decide)⟩

/-- Counterexample to the unconditional sortedness sentence of C3: under
the cyclic comparator `lt a b := (a + 1) % 3 == b`, the streams `[0, 1]`
and `[2]` are each sorted ascending — both in the strict reading (every
earlier item compares strictly below every later one) and in the
non-strict reading (no later item compares strictly below an earlier
one) — yet the drained merge `[2, 0, 1]` is sorted in neither reading. -/
theorem c3_sorted_counterexample :
    (∀ s ∈ ([[0, 1], [2]] : List (List Nat)),
        List.Pairwise (fun a b : Nat => ((a + 1) % 3 == b) = true) s) ∧
    (∀ s ∈ ([[0, 1], [2]] : List (List Nat)),
        List.Pairwise (fun a b : Nat => ((b + 1) % 3 == a) = false) s) ∧
    ¬ List.Pairwise (fun a b : Nat => ((b + 1) % 3 == a) = false)
        (hitMergeDrain (fun a b : Nat => (a + 1) % 3 == b) [[0, 1], [2]]) ∧
    ¬ List.Pairwise (fun a b : Nat => ((a + 1) % 3 == b) = true)
        (hitMergeDrain (fun a b : Nat => (a + 1) % 3 == b) [[0, 1], [2]]) := by
  decide

/-- C4: building a merge from a first batch of streams, bulk-inserting a
second batch, and draining, yields the same MULTISET as merging all
streams in one call — unconditionally.  The drained ORDER is also equal
provided the comparator is a strict total order (asymmetric, negatively
transitive, and with incomparability implying equality) and the input
streams are sorted; for comparators with genuine ties the emission order
of tied items may differ between the two builds. -/
theorem c4_bulk_insert_drain (lt : α → α → Bool) (b1 b2 : List (List α)) :
    List.Perm
      (hitDrain lt (hit_bulk_insert lt (hit_merge_by_predicate lt b1) b2))
      (hitMergeDrain lt (b1 ++ b2)) ∧
    (CmpAsym lt → CmpNegTrans lt →
      (∀ x y : α, lt x y = false → lt y x = false → x = y) →
      (∀ s ∈ b1 ++ b2, List.Pairwise (fun a b => lt b a = false) s) →
      hitDrain lt (hit_bulk_insert lt (hit_merge_by_predicate lt b1) b2)
        = hitMergeDrain lt (b1 ++ b2)) := by
  have hperm : List.Perm
      (hitDrain lt (hit_bulk_insert lt (hit_merge_by_predicate lt b1) b2))
      (hitMergeDrain lt (b1 ++ b2)) :=
    (bulk_drain_perm lt b1 b2).trans (hitMergeDrain_perm lt (b1 ++ b2)).symm
  refine ⟨hperm, fun hasym hneg hanti hsorted => ?_⟩
  haveI : IsAntisymm α (fun a b => lt b a = false) :=
    ⟨fun a b hab hba => hanti a b hba hab⟩
  have hs1 : ∀ s ∈ b1, List.Pairwise (fun a b => lt b a = false) s :=
    fun s hs => hsorted s (List.mem_append.mpr (Or.inl hs))
  have hs2 : ∀ s ∈ b2, List.Pairwise (fun a b => lt b a = false) s :=
    fun s hs => hsorted s (List.mem_append.mpr (Or.inr hs))
  exact List.eq_of_perm_of_sorted hperm
    (bulk_drain_sorted hasym hneg b1 b2 hs1 hs2)
    (hitMergeDrain_sorted hasym hneg (b1 ++ b2) hsorted)

/-- Witness for C4 at a concrete instance: the strict order on `Bool`,
first batch `[[false]]`, second batch `[[true]]`. -/
theorem c4_bulk_insert_drain_witness :
    List.Perm
      (hitDrain (fun a b : Bool => !a && b)
        (hit_bulk_insert (fun a b : Bool => !a && b)
          (hit_merge_by_predicate (fun a b : Bool => !a && b) [[false]])
          [[true]]))
      (hitMergeDrain (fun a b : Bool => !a && b) ([[false]] ++ [[true]])) ∧
    hitDrain (fun a b : Bool => !a && b)
        (hit_bulk_insert (fun a b : Bool => !a && b)
          (hit_merge_by_predicate (fun a b : Bool => !a && b) [[false]])
          [[true]])
      = hitMergeDrain (fun a b : Bool => !a && b) ([[false]] ++ [[true]]) := by
  have h := c4_bulk_insert_drain (fun a b : Bool => !a && b) [[false]] [[true]]
  exact ⟨h.1, h.2 (by unfold CmpAsym; decide) (by unfold CmpNegTrans; decide) (by decide) (by decide)⟩

/-- Counterexample to the order sentence of C4: under the strict weak
order on pairs comparing first components only — a legitimate comparator,
with all four input streams singletons, hence sorted — inserting
`[[(1,0)], [(1,1)], [(0,2)]]` and then bulk-inserting `[[(0,3)]]` drains
as `[(0,2), (0,3), (1,0), (1,1)]`, while the one-call merge of all four
streams drains as `[(0,3), (0,2), (1,1), (1,0)]`: the multisets agree but
the order of tied items differs. -/
theorem c4_order_counterexample :
    hitDrain (fun p q : Nat × Nat => p.1.blt q.1)
        (hit_bulk_insert (fun p q : Nat × Nat => p.1.blt q.1)
          (hit_merge_by_predicate (fun p q : Nat × Nat => p.1.blt q.1)
            [[(1, 0)], [(1, 1)], [(0, 2)]])
          [[(0, 3)]])
      ≠ hitMergeDrain (fun p q : Nat × Nat => p.1.blt q.1)
          ([[(1, 0)], [(1, 1)], [(0, 2)]] ++ [[(0, 3)]]) := by
  decide

end Claims34

end Solar
